import Mathlib

/-!
Verification of Ext.ux.Cache (src/Cache.js): a type-preserving, expiring
key/value cache over a string-only web-storage backend.

The development shallowly embeds the cache:

* `JSVal` models the JavaScript runtime values the cache can be handed
  (including the unsupported kinds `function`, `regexp`, `element`,
  `textnode`, `whitespace` that `set` must reject).
* `JVal` models JSON documents: the wire form produced by
  `Ext.JSON.encode` and consumed by `Ext.JSON.decode`.  `_freeze`/`_thaw`
  are modelled at this tree level, since JSON encode/decode is a bijection
  on these trees.
* The serialization engine (`_serialize_*`, `_deserialize_*`,
  `_check_serialized`) is translated function by function.  The
  deserializers recurse through property lookups on the document, so they
  are written with an explicit fuel parameter; `thaw` supplies the fuel
  `jsize doc`, which is proved sufficient (`outOfFuel` is unreachable).
* The facade (`set`/`get`/`has`/`keys`/`remove`/`clear`) is modelled for
  the string backend (`webStorage = true`), where serialization and key
  prefixing are active.  The in-memory fallback storage adapter is
  modelled separately (`MemStorage`).

JavaScript numbers are IEEE doubles; the model carries finite numbers as
rationals (`JSNum.finite : ℚ`), which is exact for every operation this
code performs on them (the code only stores and compares, never computes).
Non-finite numbers are the `nan`/`inf`/`negInf` constructors.  Dates carry
their epoch-millisecond time value, `none` standing for an Invalid Date
(whose time value is NaN).
-/

namespace ExtUxCache

/-- A JavaScript number: NaN, plus or minus Infinity, or a finite value
(carried exactly as a rational). -/
inductive JSNum where
  | nan
  | inf
  | negInf
  | finite (q : ℚ)
deriving DecidableEq

/-- A JavaScript runtime value, covering exactly the kinds `Ext.typeOf`
distinguishes in this code: the 8 storable variants plus the 5 rejected
kinds.  Dates carry their epoch-millisecond time value (`none` models an
Invalid Date).  Objects are own-enumerable members in insertion order;
JavaScript objects bind each key at most once. -/
inductive JSVal where
  | undef
  | null
  | str (s : String)
  | num (n : JSNum)
  | bool (b : Bool)
  | date (ms : Option Int)
  | arr (xs : List JSVal)
  | obj (fs : List (String × JSVal))
  | func
  | regexp
  | element
  | textnode
  | whitespace

/-- A JSON value: the wire form stored in the string backend.  This is what
`Ext.JSON.decode` can yield, so corrupt documents of any JSON shape are
representable.  JSON objects bind each key at most once. -/
inductive JVal where
  | jnull
  | jbool (b : Bool)
  | jnum (q : ℚ)
  | jstr (s : String)
  | jarr (xs : List JVal)
  | jobj (fs : List (String × JVal))

/-- Model of `Ext.typeOf` restricted to the kinds `JSVal` distinguishes. -/
def typeOf : JSVal → String
  | .undef => "undefined"
  | .null => "null"
  | .str _ => "string"
  | .num _ => "number"
  | .bool _ => "boolean"
  | .date _ => "date"
  | .arr _ => "array"
  | .obj _ => "object"
  | .func => "function"
  | .regexp => "regexp"
  | .element => "element"
  | .textnode => "textnode"
  | .whitespace => "whitespace"

/-! ### Decimal rendering and parsing of numbers

The code turns numbers into strings (`(value-0)+''` for dates, `value+''`
for non-finite numbers) and back (`value-0`, `+value`).  JavaScript
renders an integral number as its plain signed decimal form; that is
modelled here.  Parsing (`ToNumber` on a string) is modelled on the forms
this code produces: the three special names and signed decimal integers;
the empty string parses to 0 as in JavaScript, and all remaining strings
are abstracted to NaN (JavaScript would also accept forms such as "1.5"
or "0x10" that this code never emits). -/

/-- Little-endian decimal digits of a natural number; fuel-based so the
definition is structural and kernel-reducible.  Fuel `n+1` is always
sufficient for `n`. -/
def natDigitsRevFuel : Nat → Nat → List Nat
  | 0, _ => []
  | fuel + 1, n => if n < 10 then [n] else n % 10 :: natDigitsRevFuel fuel (n / 10)

/-- Decimal character for a digit (0-9). -/
def digitCh (d : Nat) : Char := Char.ofNat (48 + d)

/-- Numeric value of a decimal character. -/
def chDigit (c : Char) : Nat := c.toNat - 48

/-- Decimal rendering of a natural number. -/
def natToStr (n : Nat) : String :=
  ⟨((natDigitsRevFuel (n + 1) n).reverse.map digitCh)⟩

/-- Decimal rendering of an integer, as JavaScript renders an integral
number. -/
def intToStr (i : Int) : String :=
  if i < 0 then "-" ++ natToStr i.natAbs else natToStr i.toNat

/-- Parse an (already validated) list of decimal digit characters. -/
def parseNat (cs : List Char) : Nat :=
  cs.foldl (fun a c => a * 10 + chDigit c) 0

/-- Model of JavaScript `ToNumber` on a string, covering the string forms
this code produces: "NaN", "Infinity", "-Infinity", signed decimal
integers, and the empty string (which is 0 in JavaScript).  Other strings
are abstracted to NaN. -/
def strToNum (s : String) : JSNum :=
  if s = "NaN" then .nan
  else if s = "Infinity" then .inf
  else if s = "-Infinity" then .negInf
  else if s.data = [] then .finite 0
  else if s.data.head? = some '-' then
    (if (s.data.drop 1) ≠ [] ∧ (s.data.drop 1).all Char.isDigit then
      .finite (-(parseNat (s.data.drop 1) : ℚ))
    else .nan)
  else if s.data.all Char.isDigit then .finite ((parseNat s.data : ℚ))
  else .nan

/-- Truncation of a rational toward zero: JavaScript `ToInteger`, used by
the date machinery when a time value is not already integral. -/
def ratTrunc (q : ℚ) : Int := q.num.tdiv (q.den : Int)

/-- Time value of a number, as `new Date(n)` computes it: NaN and the
infinities give an Invalid Date. -/
def numToDateMs : JSNum → Option Int
  | .finite q => some (ratTrunc q)
  | _ => none

/-- Decimal rendering of a rational.  Integral values render exactly as
JavaScript renders them; the non-integral branch is a stand-in for
JavaScript's decimal float rendering (this code only ever stringifies
integral time values and the special names, and the stand-in, containing
a slash, can never collide with a type tag or a digit string). -/
def ratToStr (q : ℚ) : String :=
  if q.den = 1 then intToStr q.num
  else intToStr q.num ++ "/" ++ natToStr q.den

/-- String form of a number, as `value + ''` produces it. -/
def jsNumToStr : JSNum → String
  | .nan => "NaN"
  | .inf => "Infinity"
  | .negInf => "-Infinity"
  | .finite q => ratToStr q

/-! ### String coercion of JSON values

Property access `table[key]` coerces the key with `ToString`, and the
deserializers apply `value + ''` to payloads; both need a model of
JavaScript string coercion of a JSON value.  Arrays join their elements
with commas (null elements joining as the empty string); plain objects
coerce to "[object Object]". -/

mutual

/-- Model of JavaScript `ToString` on a JSON value. -/
def jvalToStr : JVal → String
  | .jnull => "null"
  | .jbool b => if b then "true" else "false"
  | .jnum q => ratToStr q
  | .jstr s => s
  | .jarr xs => joinStr xs
  | .jobj _ => "[object Object]"

/-- Array `join(',')`: null elements contribute the empty string. -/
def joinStr : List JVal → String
  | [] => ""
  | [x] =>
    match x with
    | .jnull => ""
    | x => jvalToStr x
  | x :: rest =>
    (match x with
     | .jnull => ""
     | x => jvalToStr x) ++ "," ++ joinStr rest

end

/-- Model of JavaScript `ToString` on a possibly-undefined value (`none`
models `undefined`). -/
def jsToString : Option JVal → String
  | none => "undefined"
  | some v => jvalToStr v

/-- Model of JavaScript `ToNumber` on a possibly-undefined JSON value:
`+undefined` is NaN, `+null` is 0, booleans are 0/1, strings parse, and
arrays/objects coerce through their string form. -/
def jsToNumber : Option JVal → JSNum
  | none => .nan
  | some .jnull => .finite 0
  | some (.jbool b) => .finite (if b then 1 else 0)
  | some (.jnum q) => .finite q
  | some (.jstr s) => strToNum s
  | some v => strToNum (jvalToStr v)

/-! ### JSON object primitives -/

/-- First binding for a key in a field list (JSON objects bind each key at
most once). -/
def lookupFirst : List (String × JVal) → String → Option JVal
  | [], _ => none
  | (k, v) :: rest, key => if k = key then some v else lookupFirst rest key

/-- Model of `Ext.isObject`: true exactly for plain objects (arrays and
null are not objects). -/
def isObjectJ : JVal → Bool
  | .jobj _ => true
  | _ => false

/-- Model of `hasOwnProperty` on a JSON value. -/
def hasOwn (v : JVal) (k : String) : Bool :=
  match v with
  | .jobj fs => fs.any (fun p => p.1 = k)
  | _ => false

/-- Property read `v[k]` on a JSON value; absent properties (and reads on
non-objects) are `undefined`, modelled as `none`. -/
def objGet (v : JVal) (k : String) : Option JVal :=
  match v with
  | .jobj fs => lookupFirst fs k
  | _ => none

/-! ### Errors

One constructor per distinct `Ext.Error.raise` site (plus the host
TypeError the array deserializer can hit, and the fuel marker, which is
proved unreachable from `thaw`). -/

/-- Every error the cache can raise. -/
inductive CErr where
  | invalidKey
  | invalidValue
  | unsupportedType (t : String)
  | invalidExpiration
  | invalidValueType (t : String)
  | invalidSerialized
  | invalidSerializedType (t : String)
  | invalidSerializedBoolean
  | typeErr
  | outOfFuel
deriving DecidableEq

/-! ### Serialization engine: value → wire document -/

/-- Wire node with no payload: used for `undefined` and `null`. -/
def mkNode (t : String) : JVal := .jobj [("type", .jstr t)]

/-- Wire node carrying a payload. -/
def mkNodeV (t : String) (p : JVal) : JVal := .jobj [("type", .jstr t), ("value", p)]

/-- Model of `_serialize_undefined`. -/
def serialize_undefined : JVal := mkNode "undefined"

/-- Model of `_serialize_null`. -/
def serialize_null : JVal := mkNode "null"

/-- Model of `_serialize_string`. -/
def serialize_string (s : String) : JVal := mkNodeV "string" (.jstr s)

/-- Model of `_serialize_number`: a value that is not `-Infinity`, not
`Infinity`, and whose string form is not "NaN" (i.e. a finite number) is
stored as a literal number; the three non-finite values are stored as
their name strings. -/
def serialize_number (n : JSNum) : JVal :=
  match n with
  | .finite q => mkNodeV "number" (.jnum q)
  | n => mkNodeV "number" (.jstr (jsNumToStr n))

/-- Model of `_serialize_boolean`: the strings "true"/"false". -/
def serialize_boolean (b : Bool) : JVal :=
  mkNodeV "boolean" (.jstr (if b then "true" else "false"))

/-- Model of `_serialize_date`: `(value-0)+''`, the string form of the
epoch-millisecond time value ("NaN" for an Invalid Date). -/
def serialize_date (ms : Option Int) : JVal :=
  mkNodeV "date" (.jstr (match ms with
    | some i => intToStr i
    | none => "NaN"))

mutual

/-- Model of `_serialize_value`: the dispatch switch.  The source switches
on `Ext.typeOf(value)`, which every call site passes, so the switch is the
match on the value's constructor; the `default` branch raises
`Invalid value type` naming the offending type.  The array and object
cases are the bodies of `_serialize_array`/`_serialize_object` (also
available as the wrappers `serialize_array`/`serialize_object` below). -/
def serialize_value : JSVal → Except CErr JVal
  | .undef => .ok serialize_undefined
  | .null => .ok serialize_null
  | .str s => .ok (serialize_string s)
  | .num n => .ok (serialize_number n)
  | .bool b => .ok (serialize_boolean b)
  | .date ms => .ok (serialize_date ms)
  | .obj fs =>
    match serialize_fields fs with
    | .error e => .error e
    | .ok items => .ok (mkNodeV "object" (.jobj items))
  | .arr xs =>
    match serialize_items xs with
    | .error e => .error e
    | .ok items => .ok (mkNodeV "array" (.jarr items))
  | v => .error (.invalidValueType (typeOf v))

/-- The element loop of `_serialize_array`: each element serialized in
order, recursively; the first failing element aborts the walk. -/
def serialize_items : List JSVal → Except CErr (List JVal)
  | [] => .ok []
  | x :: rest =>
    match serialize_value x with
    | .error e => .error e
    | .ok d =>
      match serialize_items rest with
      | .error e => .error e
      | .ok ds => .ok (d :: ds)

/-- The member loop of `_serialize_object`: own enumerable members
serialized in order, recursively. -/
def serialize_fields : List (String × JSVal) → Except CErr (List (String × JVal))
  | [] => .ok []
  | (k, v) :: rest =>
    match serialize_value v with
    | .error e => .error e
    | .ok d =>
      match serialize_fields rest with
      | .error e => .error e
      | .ok ds => .ok ((k, d) :: ds)

end

/-- Model of `_serialize_array` as a named entry point (the same
computation `serialize_value` performs on an array). -/
def serialize_array (xs : List JSVal) : Except CErr JVal :=
  match serialize_items xs with
  | .error e => .error e
  | .ok items => .ok (mkNodeV "array" (.jarr items))

/-- Model of `_serialize_object` as a named entry point (the same
computation `serialize_value` performs on an object). -/
def serialize_object (fs : List (String × JSVal)) : Except CErr JVal :=
  match serialize_fields fs with
  | .error e => .error e
  | .ok items => .ok (mkNodeV "object" (.jobj items))

/-! ### Storable values -/

mutual

/-- Values built only from the storable variants: with `u = true` the
`Undefined` marker is allowed (it is storable when nested), with
`u = false` it is excluded everywhere (the set of values claim C1
quantifies over). -/
def storableWith (u : Bool) : JSVal → Bool
  | .undef => u
  | .null => true
  | .str _ => true
  | .num _ => true
  | .bool _ => true
  | .date _ => true
  | .arr xs => storableList u xs
  | .obj fs => storableFields u fs
  | _ => false

/-- Elementwise `storableWith` over an array. -/
def storableList (u : Bool) : List JSVal → Bool
  | [] => true
  | x :: rest => storableWith u x && storableList u rest

/-- Memberwise `storableWith` over object fields. -/
def storableFields (u : Bool) : List (String × JSVal) → Bool
  | [] => true
  | (_, v) :: rest => storableWith u v && storableFields u rest

end

/-! ### Deserialization engine: wire document → value -/

/-- Model of JavaScript LOOSE equality `v == s` against a non-numeric
string literal: a string tag compares directly; an array tag compares
through its joined string form (`ToPrimitive` on an array is its join,
so `["undefined"] == 'undefined'` holds); numbers and booleans compare
numerically against the non-numeric string (NaN) and fail; `null` is
loosely equal only to `undefined`/`null`, not to any string; a plain
object coerces to "[object Object]", which is neither of the tags this
comparison is used with. -/
def looseEqStr (v : JVal) (s : String) : Bool :=
  match v with
  | .jstr t => t = s
  | .jarr xs => joinStr xs = s
  | _ => false

/-- Model of `_check_serialized`: raises (returns false here) unless the
node is a plain object carrying a `type` member, and carrying a `value`
member whenever its tag is neither "undefined" nor "null".  The source
compares `value.type` to the tag strings with LOOSE `!=`, so besides a
string tag an array tag joining to "undefined"/"null" also passes. -/
def check_serialized (v : JVal) : Bool :=
  isObjectJ v && hasOwn v "type" &&
    ((match objGet v "type" with
      | some t => looseEqStr t "undefined" || looseEqStr t "null"
      | none => false) ||
     hasOwn v "value")

/-- Model of `_deserialize_string`: `value + ''`. -/
def deserialize_string (v : Option JVal) : JSVal := .str (jsToString v)

/-- Model of `_deserialize_number`: the switch compares the payload by
strict equality against the three name strings (a non-string payload can
never match), then falls through to `+value`. -/
def deserialize_number (v : Option JVal) : JSVal :=
  match v with
  | some (.jstr s) =>
      if s = "-Infinity" then .num .negInf
      else if s = "Infinity" then .num .inf
      else if s = "NaN" then .num .nan
      else .num (strToNum s)
  | _ => .num (jsToNumber v)

/-- Model of `_deserialize_boolean`: only the payloads "true"/"false" are
accepted; anything else raises `Invalid serialized boolean value`. -/
def deserialize_boolean : Option JVal → Except CErr JSVal
  | some (.jstr "true") => .ok (.bool true)
  | some (.jstr "false") => .ok (.bool false)
  | _ => .error .invalidSerializedBoolean

/-- Model of `_deserialize_date`: `new Date(value - 0)`; the subtraction
coerces the payload with `ToNumber`, and a non-finite time value gives an
Invalid Date. -/
def deserialize_date (v : Option JVal) : JSVal := .date (numToDateMs (jsToNumber v))

/-- Enumerate an array's tail as `for (i in value)` does from index `i`:
index keys (as decimal strings) with the elements as values. -/
def enumFieldsFrom (i : Nat) : List JVal → List (String × JVal)
  | [] => []
  | x :: rest => (natToStr i, x) :: enumFieldsFrom (i + 1) rest

/-- Enumerate an array as `for (i in value)` does: index keys (as decimal
strings) with the elements as values. -/
def enumFields (xs : List JVal) : List (String × JVal) := enumFieldsFrom 0 xs

mutual

/-- Model of `_deserialize_value`: looks the tag up in the instance's
`functionTable` (a property access, so the tag is coerced to a string:
an `undefined` tag coerces to the key "undefined" and a `null` tag to
"null", both of which the table maps!) and dispatches; an unknown tag
raises `Invalid serialized value type`.  The fuel argument only bounds
recursion depth; `thaw` supplies a fuel proved sufficient. -/
def deserialize_value : Nat → Option JVal → Option JVal → Except CErr JSVal
  | 0, _, _ => .error .outOfFuel
  | fuel + 1, t, v =>
    let tag := jsToString t
    if tag = "undefined" then .ok .undef
    else if tag = "null" then .ok .null
    else if tag = "string" then .ok (deserialize_string v)
    else if tag = "number" then .ok (deserialize_number v)
    else if tag = "boolean" then deserialize_boolean v
    else if tag = "date" then .ok (deserialize_date v)
    else if tag = "array" then deserialize_array fuel v
    else if tag = "object" then deserialize_object fuel v
    else .error (.invalidSerializedType tag)

/-- Model of `_deserialize_array`: iterates `value[0..value.length)`.  A
missing or null payload throws a TypeError reading `.length`; a non-empty
string payload iterates one-character strings, each of which fails
`_check_serialized`; payloads without a numeric `length` property iterate
zero times (an object payload carrying its own `length` member would be
walked array-like; that corruption-only shape is abstracted to the
zero-iteration result here). -/
def deserialize_array : Nat → Option JVal → Except CErr JSVal
  | 0, _ => .error .outOfFuel
  | fuel + 1, v =>
    match v with
    | some (.jarr xs) =>
      match deserialize_items fuel xs with
      | .error e => .error e
      | .ok items => .ok (.arr items)
    | none => .error .typeErr
    | some .jnull => .error .typeErr
    | some (.jstr s) => if s = "" then .ok (.arr []) else .error .invalidSerialized
    | _ => .ok (.arr [])

/-- The element loop of `_deserialize_array`: reads `item.type` and
`item.value`, then `_check_serialized(item)` raises on a malformed node
before any recursion into it, then recurses. -/
def deserialize_items : Nat → List JVal → Except CErr (List JSVal)
  | _, [] => .ok []
  | 0, _ :: _ => .error .outOfFuel
  | fuel + 1, item :: rest =>
    if check_serialized item then
      match deserialize_value fuel (objGet item "type") (objGet item "value") with
      | .error e => .error e
      | .ok x =>
        match deserialize_items fuel rest with
        | .error e => .error e
        | .ok xs => .ok (x :: xs)
    else .error .invalidSerialized

/-- Model of `_deserialize_object`: iterates `for (i in value)`.  An
object payload iterates its members; an array payload iterates index keys
(array-like); a non-empty string payload iterates one-character strings,
each failing `_check_serialized`; `undefined`, `null` and primitives
enumerate nothing. -/
def deserialize_object : Nat → Option JVal → Except CErr JSVal
  | 0, _ => .error .outOfFuel
  | fuel + 1, v =>
    match v with
    | some (.jobj fs) =>
      match deserialize_fields fuel fs with
      | .error e => .error e
      | .ok items => .ok (.obj items)
    | some (.jarr xs) =>
      match deserialize_fields fuel (enumFields xs) with
      | .error e => .error e
      | .ok items => .ok (.obj items)
    | some (.jstr s) => if s = "" then .ok (.obj []) else .error .invalidSerialized
    | _ => .ok (.obj [])

/-- The member loop of `_deserialize_object`: like the array loop,
`_check_serialized(item)` raises on a malformed member before any
recursion into it. -/
def deserialize_fields : Nat → List (String × JVal) → Except CErr (List (String × JSVal))
  | _, [] => .ok []
  | 0, _ :: _ => .error .outOfFuel
  | fuel + 1, (k, item) :: rest =>
    if check_serialized item then
      match deserialize_value fuel (objGet item "type") (objGet item "value") with
      | .error e => .error e
      | .ok x =>
        match deserialize_fields fuel rest with
        | .error e => .error e
        | .ok xs => .ok ((k, x) :: xs)
    else .error .invalidSerialized

end

/-! ### Fuel bookkeeping

`jsize` counts document nodes, weighted so that it dominates the
recursion depth of the deserializers; `thaw` runs them with fuel
`jsize doc`, and `deserialize_value_no_fuel_err` below shows the
`outOfFuel` marker is unreachable from `thaw`. -/

mutual

/-- Weighted size of a JSON document. -/
def jsize : JVal → Nat
  | .jarr xs => 1 + jsizeList xs
  | .jobj fs => 1 + jsizeFields fs
  | _ => 1

/-- Weighted size of an array's elements. -/
def jsizeList : List JVal → Nat
  | [] => 0
  | x :: rest => 1 + jsize x + jsizeList rest

/-- Weighted size of an object's members. -/
def jsizeFields : List (String × JVal) → Nat
  | [] => 0
  | (_, v) :: rest => 1 + jsize v + jsizeFields rest

end

/-- Size of a possibly-absent payload (`undefined` has size 0). -/
def psize : Option JVal → Nat
  | none => 0
  | some v => jsize v

/-! ### Freeze / thaw -/

/-- Model of `_freeze` on the string backend: serialize the value (the
subsequent `Ext.JSON.encode` is a bijection onto the stored string and is
modelled as the identity on the document tree). -/
def freeze (v : JSVal) : Except CErr JVal := serialize_value v

/-- Model of `_thaw` on the string backend: decode (identity at this
level) and dispatch on `thawed['type']` with `thawed['value']`.  Note the
top-level node is NOT passed through `_check_serialized`.  The fuel
`jsize d` is proved sufficient below. -/
def thaw (d : JVal) : Except CErr JSVal :=
  deserialize_value (jsize d) (objGet d "type") (objGet d "value")

/-! ### String backend (webStorage)

A web storage area: string keys bound at most once, enumerated by
`key(i)` in a fixed order, modelled as an association list.  The stored
strings are JSON documents, kept here in decoded form. -/

/-- The string backend's contents. -/
abbrev Store := List (String × JVal)

/-- Model of `getItem`: first (only) binding, `null` (here `none`) when absent. -/
def getItemS (st : Store) (k : String) : Option JVal :=
  match st with
  | [] => none
  | (k', v) :: rest => if k' = k then some v else getItemS rest k

/-- Model of `setItem`: replace the binding in place if present, else append. -/
def setItemS (st : Store) (k : String) (v : JVal) : Store :=
  match st with
  | [] => [(k, v)]
  | (k', v') :: rest =>
    if k' = k then (k, v) :: rest else (k', v') :: setItemS rest k v

/-- Model of `removeItem`: drop the binding for `k` if present. -/
def removeItemS (st : Store) (k : String) : Store :=
  match st with
  | [] => []
  | (k', v') :: rest =>
    if k' = k then removeItemS rest k else (k', v') :: removeItemS rest k

/-! ### JavaScript value predicates used by the facade -/

/-- Strict-equality test against `undefined`. -/
def isUndef : JSVal → Bool
  | .undef => true
  | _ => false

/-- Model of `Ext.isNumber`: a number that is finite (NaN and the
infinities fail the `isFinite` part). -/
def isNumberJS : JSVal → Bool
  | .num (.finite _) => true
  | _ => false

/-- Model of `Ext.isDate` (an Invalid Date is still a Date). -/
def isDateJS : JSVal → Bool
  | .date _ => true
  | _ => false

/-- Model of `Ext.isNumeric` as `set` reaches it: at that point the
expiration is `undefined` or a finite number (dates took the earlier
branch), so it coincides with `Ext.isNumber`. -/
def isNumericJS : JSVal → Bool
  | .num (.finite _) => true
  | _ => false

/-- JavaScript truthiness of a runtime value. -/
def truthy : JSVal → Bool
  | .undef => false
  | .null => false
  | .bool b => b
  | .num (.finite q) => decide (q ≠ 0)
  | .num .nan => false
  | .num _ => true
  | .str s => decide (s ≠ "")
  | _ => true

/-- The comparison `item.expires < now` of `get`: `now` is a number, a
date compares by its time value (an Invalid Date compares as NaN, hence
false).  The entry's `expires` member is always `undefined` or a date;
the remaining coercions are supplied for totality (`ToPrimitive` on
arrays/objects, never exercised here, is abstracted to false). -/
def jsLtNow (v : JSVal) (now : Int) : Bool :=
  match v with
  | .date (some ms) => decide (ms < now)
  | .date none => false
  | .num (.finite q) => decide (q < (now : ℚ))
  | .num .negInf => true
  | .num _ => false
  | .null => decide ((0 : Int) < now)
  | .bool b => decide ((if b then (1 : Int) else 0) < now)
  | .str s =>
    match strToNum s with
    | .finite q => decide (q < (now : ℚ))
    | .negInf => true
    | _ => false
  | _ => false

/-- Property read `item[k]` on a runtime value: first binding of an
object's member list, `undefined` otherwise (the primitives reached here
have no such properties). -/
def jsProp (v : JSVal) (k : String) : JSVal :=
  (match v with
  | .obj fs =>
    match fs.find? (fun p => p.1 = k) with
    | some p => p.2
    | none => .undef
  | _ => .undef)

/-- Model of `Ext.Date.add(new Date(), Ext.Date.MILLI, expires)`: the current time
plus the (integer-truncated) millisecond count.  Only reached with a
finite numeric modifier. -/
def dateAdd (now : Int) (e : JSVal) : Int :=
  match e with
  | .num (.finite q) => now + ratTrunc q
  | _ => now

/-! ### Cache facade (string backend, key prefix active)

Every operation threads the backend state explicitly and returns it even
when an error is raised, because a raise leaves any mutation already
performed in place.  `pfx` is the configured `keyPrefix`; `now` is the
current time in epoch milliseconds. -/

/-- Model of `_fetch_value`: `getItem` under the prefixed key, `undefined`
when absent (web storage returns `null`, which is falsy; a stored JSON
document is a non-empty string, which is truthy), otherwise `_thaw`. -/
def fetch_value (pfx : String) (st : Store) (key : String) : Except CErr JSVal :=
  match getItemS st (pfx ++ key) with
  | none => .ok .undef
  | some d => thaw d

/-- Model of `set`: validates key, value, top-level type and expiration
modifier, then removes any existing entry, resolves the expiration to an
absolute date, freezes `{value: value, expires: exp}` and stores it under
the prefixed key, returning the input value.  The key and expiration
arguments are arbitrary runtime values (`.undef` models an omitted
argument). -/
def cache_set (pfx : String) (st : Store) (key : JSVal) (value : JSVal)
    (expires : JSVal) (now : Int) : Store × Except CErr JSVal :=
  match key with
  | .str k =>
    if k = "" then (st, .error .invalidKey)
    else if isUndef value then (st, .error .invalidValue)
    else
      let t := typeOf value
      if t = "function" || t = "regexp" || t = "element" || t = "textnode"
          || t = "whitespace" then
        (st, .error (.unsupportedType t))
      else if !isUndef expires && (!isNumberJS expires && !isDateJS expires) then
        (st, .error .invalidExpiration)
      else
        let st1 := removeItemS st (pfx ++ k)
        let exp : JSVal :=
          if isDateJS expires then expires
          else if isNumericJS expires then .date (some (dateAdd now expires))
          else .undef
        match freeze (.obj [("value", value), ("expires", exp)]) with
        | .error e => (st1, .error e)
        | .ok doc => (setItemS st1 (pfx ++ k) doc, .ok value)
  | _ => (st, .error .invalidKey)

/-- Model of `get`: fetch, return `undefined` when not found, evict and
return `undefined` when the entry carries a truthy `expires` strictly
less than now, else return `entry.value`. -/
def cache_get (pfx : String) (st : Store) (key : String) (now : Int) :
    Store × Except CErr JSVal :=
  match fetch_value pfx st key with
  | .error e => (st, .error e)
  | .ok item =>
    if isUndef item then (st, .ok .undef)
    else
      let ex := jsProp item "expires"
      if truthy ex && jsLtNow ex now then (removeItemS st (pfx ++ key), .ok .undef)
      else (st, .ok (jsProp item "value"))

/-- Model of `has`: `_fetch_value(key) !== undefined`, with no expiration
check. -/
def cache_has (pfx : String) (st : Store) (key : String) : Except CErr Bool :=
  match fetch_value pfx st key with
  | .error e => .error e
  | .ok item => .ok (!isUndef item)

/-- First index at which `pat` occurs in `hay` (`String.indexOf`,
`none` for -1). -/
def firstOccur (hay pat : List Char) : Option Nat :=
  if pat.isPrefixOf hay then some 0
  else
    match hay with
    | [] => none
    | _ :: t => (firstOccur t pat).map (· + 1)

/-- The body of `_get_keys` for one backend key: `key.indexOf(pfx)`, and
when the prefix occurs ANYWHERE in the key, `key.substr(idx + pfx.length)`
(the suffix after the first occurrence). -/
def keyStrip (pfx k : String) : Option String :=
  (firstOccur k.data pfx.data).map (fun idx => ⟨k.data.drop (idx + pfx.data.length)⟩)

/-- Model of `keys` (via `_get_keys`): walk `storage.key(i)` for
`i < storage.length` and collect the stripped keys of those containing
the prefix. -/
def cache_keys (pfx : String) (st : Store) : List String :=
  st.filterMap (fun p => keyStrip pfx p.1)

/-- Model of `remove`: `removeItem` under the prefixed key. -/
def cache_remove (pfx : String) (st : Store) (key : String) : Store :=
  removeItemS st (pfx ++ key)

/-- Model of `clear` on the string backend (shared, so never wiped
wholesale): remove each key `keys()` reports. -/
def cache_clear (pfx : String) (st : Store) : Store :=
  (cache_keys pfx st).foldl (fun s k => cache_remove pfx s k) st

/-- Whether a backend key starts with the cache's prefix (the ownership
criterion the spec intends). -/
def ownKey (pfx k : String) : Bool := pfx.data.isPrefixOf k.data

/-! ### In-memory fallback storage adapter

The default `storage` object of the class: an items map, a keys array and
a length counter, with web-storage-compatible methods.  Presence is
tested by TRUTHINESS of the stored value (`!me.items[key]`). -/

/-- The in-memory adapter's state. -/
structure MemStorage where
  items : List (String × JSVal)
  keys : List String
  length : Int

/-- The adapter's initial (empty) state. -/
def memInit : MemStorage := ⟨[], [], 0⟩

/-- Own binding of a key in the items map, if any. -/
def memOwn (s : MemStorage) (k : String) : Option JSVal :=
  (s.items.find? (fun p => p.1 = k)).map Prod.snd

/-- Properties a plain object literal inherits from `Object.prototype`:
reading `({})[k]` for these names yields a truthy value even with no own
binding.  The methods are functions; `__proto__` is an accessor yielding
the (truthy) prototype object, abstracted here as an opaque object
value. -/
def protoProp (k : String) : Option JSVal :=
  if k = "toString" ∨ k = "toLocaleString" ∨ k = "valueOf" ∨
      k = "hasOwnProperty" ∨ k = "isPrototypeOf" ∨
      k = "propertyIsEnumerable" ∨ k = "constructor" then some .func
  else if k = "__proto__" then some (.obj [])
  else none

/-- Whether a key is free of `Object.prototype` interference (every key
that does not name an inherited property). -/
def plainKey (k : String) : Bool := (protoProp k).isNone

/-- Model of `getItem`: `this.items[key]` on a plain object literal — an
own binding when present (even an `undefined`-valued one shadows), and
otherwise the prototype chain (`undefined` only past it). -/
def memGetItem (s : MemStorage) (k : String) : Option JSVal :=
  match memOwn s k with
  | some v => some v
  | none => protoProp k

/-- Model of `key(index)`: `this.keys[index]` (`undefined` out of bounds). -/
def memKeyAt (s : MemStorage) (i : Nat) : Option String := s.keys.get? i

/-- Truthiness of `items[key]`. -/
def truthyOpt : Option JSVal → Bool
  | none => false
  | some v => truthy v

/-- Object member assignment `items[key] = value`: rebind in place or
append (a JavaScript object binds each key once). -/
def assocSet (items : List (String × JSVal)) (k : String) (v : JSVal) :
    List (String × JSVal) :=
  match items with
  | [] => [(k, v)]
  | (k', v') :: rest =>
    if k' = k then (k, v) :: rest else (k', v') :: assocSet rest k v

/-- Model of `delete items[key]`. -/
def assocDrop (items : List (String × JSVal)) (k : String) : List (String × JSVal) :=
  items.filter (fun p => p.1 ≠ k)

/-- Model of `setItem`: if `items[key]` is FALSY the key is pushed and the length
bumped (even if a binding with a falsy value is already present!), then
the value is assigned. -/
def memSetItem (s : MemStorage) (k : String) (v : JSVal) : MemStorage :=
  if truthyOpt (memGetItem s k) then { s with items := assocSet s.items k v }
  else { items := assocSet s.items k v, keys := s.keys ++ [k], length := s.length + 1 }

/-- Model of `removeItem`: returns untouched when `items[key]` is falsy; otherwise
removes the key's first occurrence from the keys array
(`Ext.Array.remove`), deletes the binding and decrements the length. -/
def memRemoveItem (s : MemStorage) (k : String) : MemStorage :=
  if !truthyOpt (memGetItem s k) then s
  else { items := assocDrop s.items k, keys := s.keys.erase k, length := s.length - 1 }

/-- Model of `clear`: reset all three fields. -/
def memClear (_ : MemStorage) : MemStorage := ⟨[], [], 0⟩

/-- One adapter call, for stating invariants over call sequences. -/
inductive MemOp where
  | setI (k : String) (v : JSVal)
  | removeI (k : String)
  | clearI

/-- Apply one adapter call. -/
def memApply (s : MemStorage) : MemOp → MemStorage
  | .setI k v => memSetItem s k v
  | .removeI k => memRemoveItem s k
  | .clearI => memClear s

/-- Run a sequence of adapter calls from a state. -/
def memRun (s : MemStorage) : List MemOp → MemStorage
  | [] => s
  | op :: rest => memRun (memApply s op) rest

/-! ### Definitions supporting the claim statements -/

/-- The value of a big-endian parse, stated over little-endian digit
lists, for relating `parseNat` to `natDigitsRevFuel`. -/
def ofDigits10 : List Nat → Nat
  | [] => 0
  | d :: ds => d + 10 * ofDigits10 ds

/-- The set of values claim C1 quantifies over: built from strings,
numbers (finite, NaN, the infinities), booleans, dates, null, arrays and
objects only — no `Undefined` anywhere and no unsupported kind. -/
def storable : JSVal → Bool := storableWith false

/-- The round trip of the serialization engine:
`_deserialize_value` applied to the node `_serialize_value` produced
(`thaw`'s dispatch on a node). -/
def roundTrip (v : JSVal) : Except CErr JSVal := (serialize_value v).bind thaw

mutual

/-- Whether the `Undefined` marker occurs somewhere inside a value. -/
def containsUndef : JSVal → Bool
  | .undef => true
  | .arr xs => containsUndefList xs
  | .obj fs => containsUndefFields fs
  | _ => false

/-- Elementwise `containsUndef` over an array. -/
def containsUndefList : List JSVal → Bool
  | [] => false
  | x :: rest => containsUndef x || containsUndefList rest

/-- Memberwise `containsUndef` over object fields. -/
def containsUndefFields : List (String × JSVal) → Bool
  | [] => false
  | (_, v) :: rest => containsUndef v || containsUndefFields rest

end

/-- Whether a value is an array or an object. -/
def isArrOrObj : JSVal → Bool
  | .arr _ => true
  | .obj _ => true
  | _ => false

/-- The adapter invariant of claim C10: the keys array lists exactly the
stored keys, in order and without repetition; the length field counts
them; and every stored value is truthy (which is what keeps the
truthiness-based presence test correct). -/
def memInv (s : MemStorage) : Prop :=
  s.keys = s.items.map Prod.fst ∧
  (s.items.map Prod.fst).Nodup ∧
  s.length = (s.items.length : Int) ∧
  ∀ p ∈ s.items, truthy p.2 = true

/-- Whether an adapter call stores only truthy values under keys free of
prototype interference.  Every cache entry is an object, hence truthy;
the keys the invariant claim is about are ordinary cache keys, and a key
naming an inherited `Object.prototype` property defeats the adapter's
truthiness-based presence test, as the counterexample shows. -/
def opOk : MemOp → Bool
  | .setI k v => truthy v && plainKey k
  | .removeI k => plainKey k
  | .clearI => true

/-! ## Theorems

First the decimal round trip (needed because dates travel through their
string form), then the engine round trip, then the facade and adapter
lemmas, then the claims. -/

theorem chDigit_digitCh {d : Nat} (h : d < 10) : chDigit (digitCh d) = d := by
  interval_cases d <;> decide

theorem digitCh_isDigit {d : Nat} (h : d < 10) : (digitCh d).isDigit = true := by
  interval_cases d <;> decide

theorem natDigitsRevFuel_lt (fuel n : Nat) :
    ∀ d ∈ natDigitsRevFuel fuel n, d < 10 := by
  induction fuel generalizing n with
  | zero => intro d hd; simp [natDigitsRevFuel] at hd
  | succ fuel ih =>
    intro d hd
    by_cases h : n < 10
    · simp [natDigitsRevFuel, h] at hd
      omega
    · simp [natDigitsRevFuel, h] at hd
      rcases hd with hd | hd
      · omega
      · exact ih (n / 10) d hd

theorem natDigitsRevFuel_ne_nil (fuel n : Nat) (h : 0 < fuel) :
    natDigitsRevFuel fuel n ≠ [] := by
  cases fuel with
  | zero => omega
  | succ fuel =>
    by_cases h10 : n < 10 <;> simp [natDigitsRevFuel, h10]

theorem ofDigits10_natDigitsRevFuel (fuel : Nat) :
    ∀ n, n < fuel → ofDigits10 (natDigitsRevFuel fuel n) = n := by
  induction fuel with
  | zero => intro n h; omega
  | succ fuel ih =>
    intro n h
    by_cases h10 : n < 10
    · simp [natDigitsRevFuel, h10, ofDigits10]
    · have hdiv : n / 10 < n := Nat.div_lt_self (by omega) (by omega)
      simp only [natDigitsRevFuel, if_neg h10, ofDigits10]
      rw [ih (n / 10) (by omega)]
      omega

theorem parseNat_rev_map (ds : List Nat) (h : ∀ d ∈ ds, d < 10) :
    parseNat (ds.reverse.map digitCh) = ofDigits10 ds := by
  induction ds with
  | nil => rfl
  | cons d ds ih =>
    have hd : d < 10 := h d (by simp)
    have hds : ∀ x ∈ ds, x < 10 := fun x hx => h x (by simp [hx])
    have ihds := ih hds
    simp only [parseNat] at ihds ⊢
    rw [List.reverse_cons, List.map_append, List.foldl_append, ihds]
    simp only [List.map_cons, List.map_nil, List.foldl_cons, List.foldl_nil,
      chDigit_digitCh hd, ofDigits10]
    omega

theorem natToStr_data (n : Nat) :
    (natToStr n).data = (natDigitsRevFuel (n + 1) n).reverse.map digitCh := rfl

theorem parseNat_natToStr (n : Nat) : parseNat (natToStr n).data = n := by
  rw [natToStr_data, parseNat_rev_map _ (natDigitsRevFuel_lt _ n),
    ofDigits10_natDigitsRevFuel (n + 1) n (by omega)]

theorem natToStr_all_digits (n : Nat) :
    (natToStr n).data.all Char.isDigit = true := by
  rw [natToStr_data]
  simp only [List.all_eq_true, List.mem_map, List.mem_reverse]
  rintro c ⟨d, hd, rfl⟩
  exact digitCh_isDigit (natDigitsRevFuel_lt _ n d hd)

theorem natToStr_data_ne_nil (n : Nat) : (natToStr n).data ≠ [] := by
  rw [natToStr_data]
  simp [natDigitsRevFuel_ne_nil (n + 1) n (by omega)]

theorem all_digits_ne (s : String) (hs : s.data.all Char.isDigit = true) :
    s ≠ "NaN" ∧ s ≠ "Infinity" ∧ s ≠ "-Infinity" := by
  refine ⟨?_, ?_, ?_⟩ <;> rintro rfl <;> exact absurd hs (by decide)

theorem strToNum_natToStr (n : Nat) : strToNum (natToStr n) = .finite (n : ℚ) := by
  have hall := natToStr_all_digits n
  have hne := natToStr_data_ne_nil n
  obtain ⟨hn1, hn2, hn3⟩ := all_digits_ne _ hall
  have hhead : ¬((natToStr n).data.head? = some '-') := by
    rcases hd : (natToStr n).data with _ | ⟨c, rest⟩
    · exact absurd hd hne
    · simp only [List.head?]
      intro hc
      injection hc with hc
      subst hc
      rw [hd] at hall
      simp only [List.all_cons, Bool.and_eq_true] at hall
      exact absurd hall.1 (by decide)
  unfold strToNum
  rw [if_neg hn1, if_neg hn2, if_neg hn3, if_neg hne, if_neg hhead, if_pos hall,
    parseNat_natToStr]

theorem strToNum_intToStr (i : Int) : strToNum (intToStr i) = .finite (i : ℚ) := by
  by_cases hi : i < 0
  · have hdata : (intToStr i).data = '-' :: (natToStr i.natAbs).data := by
      unfold intToStr
      rw [if_pos hi, String.data_append]
      rfl
    have hall := natToStr_all_digits i.natAbs
    have hne := natToStr_data_ne_nil i.natAbs
    have hn1 : intToStr i ≠ "NaN" := by
      intro h
      rw [String.ext_iff, hdata] at h
      exact absurd (List.head_eq_of_cons_eq h) (by decide)
    have hn2 : intToStr i ≠ "Infinity" := by
      intro h
      rw [String.ext_iff, hdata] at h
      exact absurd (List.head_eq_of_cons_eq h) (by decide)
    have hn3 : intToStr i ≠ "-Infinity" := by
      intro h
      rw [String.ext_iff, hdata] at h
      have htail := List.tail_eq_of_cons_eq h
      rw [htail] at hall
      exact absurd hall (by decide)
    have hnil : ¬((intToStr i).data = []) := by rw [hdata]; simp
    have hhead : (intToStr i).data.head? = some '-' := by rw [hdata]; rfl
    have hdrop : (intToStr i).data.drop 1 = (natToStr i.natAbs).data := by
      rw [hdata]; rfl
    unfold strToNum
    rw [if_neg hn1, if_neg hn2, if_neg hn3, if_neg hnil, if_pos hhead, hdrop,
      if_pos ⟨hne, hall⟩, parseNat_natToStr]
    congr 1
    rw [Int.cast_natAbs, abs_of_neg hi]
    push_cast
    ring
  · have h0 : intToStr i = natToStr i.toNat := by unfold intToStr; rw [if_neg hi]
    rw [h0, strToNum_natToStr]
    congr 1
    have : ((i.toNat : Int) : ℚ) = (i : ℚ) := by
      rw [Int.toNat_of_nonneg (by omega)]
    push_cast at this ⊢
    exact this

/-! ### Shape of serializer output -/

theorem serialize_check {v : JSVal} {d : JVal} (h : serialize_value v = .ok d) :
    check_serialized d = true := by
  cases v with
  | undef => injection h with h; subst h; rfl
  | null => injection h with h; subst h; rfl
  | str s => injection h with h; subst h; rfl
  | num n => cases n <;> (injection h with h; subst h; rfl)
  | bool b => injection h with h; subst h; rfl
  | date ms => injection h with h; subst h; rfl
  | arr xs =>
    simp only [serialize_value] at h
    rcases hs : serialize_items xs with e | items <;> rw [hs] at h
    · exact absurd h (by simp)
    · injection h with h; subst h; rfl
  | obj fs =>
    simp only [serialize_value] at h
    rcases hs : serialize_fields fs with e | items <;> rw [hs] at h
    · exact absurd h (by simp)
    · injection h with h; subst h; rfl
  | func => exact absurd h (by simp [serialize_value])
  | regexp => exact absurd h (by simp [serialize_value])
  | element => exact absurd h (by simp [serialize_value])
  | textnode => exact absurd h (by simp [serialize_value])
  | whitespace => exact absurd h (by simp [serialize_value])

mutual

theorem serialize_value_err : ∀ {v : JSVal} {e : CErr},
    serialize_value v = .error e → ∃ t, e = .invalidValueType t
  | .undef, _, h => by simp [serialize_value] at h
  | .null, _, h => by simp [serialize_value] at h
  | .str _, _, h => by simp [serialize_value] at h
  | .num n, _, h => by cases n <;> simp [serialize_value, serialize_number] at h
  | .bool _, _, h => by simp [serialize_value] at h
  | .date _, _, h => by simp [serialize_value] at h
  | .arr xs, e, h => by
    simp only [serialize_value] at h
    rcases hs : serialize_items xs with e' | items <;> rw [hs] at h
    · injection h with h; subst h; exact serialize_items_err hs
    · exact absurd h (by simp)
  | .obj fs, e, h => by
    simp only [serialize_value] at h
    rcases hs : serialize_fields fs with e' | items <;> rw [hs] at h
    · injection h with h; subst h; exact serialize_fields_err hs
    · exact absurd h (by simp)
  | .func, _, h => by
    simp only [serialize_value] at h
    injection h with h; exact ⟨_, h.symm⟩
  | .regexp, _, h => by
    simp only [serialize_value] at h
    injection h with h; exact ⟨_, h.symm⟩
  | .element, _, h => by
    simp only [serialize_value] at h
    injection h with h; exact ⟨_, h.symm⟩
  | .textnode, _, h => by
    simp only [serialize_value] at h
    injection h with h; exact ⟨_, h.symm⟩
  | .whitespace, _, h => by
    simp only [serialize_value] at h
    injection h with h; exact ⟨_, h.symm⟩

theorem serialize_items_err : ∀ {xs : List JSVal} {e : CErr},
    serialize_items xs = .error e → ∃ t, e = .invalidValueType t
  | [], _, h => by simp [serialize_items] at h
  | x :: rest, e, h => by
    simp only [serialize_items] at h
    rcases hx : serialize_value x with e' | d <;> rw [hx] at h
    · injection h with h; subst h; exact serialize_value_err hx
    · rcases hr : serialize_items rest with e' | ds <;> rw [hr] at h
      · injection h with h; subst h; exact serialize_items_err hr
      · exact absurd h (by simp)

theorem serialize_fields_err : ∀ {fs : List (String × JSVal)} {e : CErr},
    serialize_fields fs = .error e → ∃ t, e = .invalidValueType t
  | [], _, h => by simp [serialize_fields] at h
  | (k, v) :: rest, e, h => by
    simp only [serialize_fields] at h
    rcases hx : serialize_value v with e' | d <;> rw [hx] at h
    · injection h with h; subst h; exact serialize_value_err hx
    · rcases hr : serialize_fields rest with e' | ds <;> rw [hr] at h
      · injection h with h; subst h; exact serialize_fields_err hr
      · exact absurd h (by simp)

end

mutual

theorem storable_serialize : ∀ {v : JSVal}, storableWith true v = true →
    ∃ d, serialize_value v = .ok d
  | .undef, _ => ⟨_, rfl⟩
  | .null, _ => ⟨_, rfl⟩
  | .str _, _ => ⟨_, rfl⟩
  | .num n, _ => by cases n <;> exact ⟨_, rfl⟩
  | .bool _, _ => ⟨_, rfl⟩
  | .date _, _ => ⟨_, rfl⟩
  | .arr xs, h => by
    obtain ⟨ds, hds⟩ := storable_serialize_items (by simpa [storableWith] using h)
    exact ⟨_, by simp only [serialize_value]; rw [hds]⟩
  | .obj fs, h => by
    obtain ⟨ds, hds⟩ := storable_serialize_fields (by simpa [storableWith] using h)
    exact ⟨_, by simp only [serialize_value]; rw [hds]⟩

theorem storable_serialize_items : ∀ {xs : List JSVal}, storableList true xs = true →
    ∃ ds, serialize_items xs = .ok ds
  | [], _ => ⟨[], rfl⟩
  | x :: rest, h => by
    rw [storableList, Bool.and_eq_true] at h
    obtain ⟨d, hd⟩ := storable_serialize h.1
    obtain ⟨ds, hds⟩ := storable_serialize_items h.2
    exact ⟨d :: ds, by simp only [serialize_items]; rw [hd, hds]⟩

theorem storable_serialize_fields : ∀ {fs : List (String × JSVal)},
    storableFields true fs = true → ∃ ds, serialize_fields fs = .ok ds
  | [], _ => ⟨[], rfl⟩
  | (k, v) :: rest, h => by
    rw [storableFields, Bool.and_eq_true] at h
    obtain ⟨d, hd⟩ := storable_serialize h.1
    obtain ⟨ds, hds⟩ := storable_serialize_fields h.2
    exact ⟨(k, d) :: ds, by simp only [serialize_fields]; rw [hd, hds]⟩

end

/-! ### Fuel: monotonicity and sufficiency -/

theorem jsize_pos (d : JVal) : 1 ≤ jsize d := by
  cases d <;> simp [jsize]

theorem lookupFirst_jsize {fs : List (String × JVal)} {k : String} {v : JVal}
    (h : lookupFirst fs k = some v) : jsize v + 1 ≤ jsizeFields fs := by
  induction fs with
  | nil => simp [lookupFirst] at h
  | cons p rest ih =>
    obtain ⟨k', v'⟩ := p
    simp only [lookupFirst] at h
    by_cases hk : k' = k
    · rw [if_pos hk] at h
      injection h with h
      subst h
      simp [jsizeFields]
      omega
    · rw [if_neg hk] at h
      have := ih h
      simp only [jsizeFields]
      have := jsize_pos v'
      omega

theorem psize_objGet (d : JVal) (k : String) : psize (objGet d k) + 1 ≤ jsize d := by
  cases d with
  | jobj fs =>
    simp only [objGet]
    rcases h : lookupFirst fs k with _ | v
    · simp only [psize, jsize]
      omega
    · have := lookupFirst_jsize h
      simp only [psize, jsize]
      omega
  | _ => simp [objGet, psize, jsize_pos]

theorem jsizeFields_enumFieldsFrom (i : Nat) (xs : List JVal) :
    jsizeFields (enumFieldsFrom i xs) = jsizeList xs := by
  induction xs generalizing i with
  | nil => rfl
  | cons x rest ih => simp [enumFieldsFrom, jsizeFields, jsizeList, ih]

theorem jsizeFields_enumFields (xs : List JVal) :
    jsizeFields (enumFields xs) = jsizeList xs :=
  jsizeFields_enumFieldsFrom 0 xs

mutual

theorem dval_mono : ∀ (f : Nat) (t v : Option JVal),
    deserialize_value f t v ≠ .error .outOfFuel →
    deserialize_value (f + 1) t v = deserialize_value f t v
  | 0, t, v, h => absurd rfl h
  | f + 1, t, v, h => by
    simp only [deserialize_value] at h ⊢
    by_cases h1 : jsToString t = "undefined"
    · simp [h1]
    by_cases h2 : jsToString t = "null"
    · simp [h1, h2]
    by_cases h3 : jsToString t = "string"
    · simp [h1, h2, h3]
    by_cases h4 : jsToString t = "number"
    · simp [h1, h2, h3, h4]
    by_cases h5 : jsToString t = "boolean"
    · simp [h1, h2, h3, h4, h5]
    by_cases h6 : jsToString t = "date"
    · simp [h1, h2, h3, h4, h5, h6]
    by_cases h7 : jsToString t = "array"
    · simp only [h1, h2, h3, h4, h5, h6, h7, if_neg, if_pos, if_false, if_true]
      simp only [if_neg h1, if_neg h2, if_neg h3, if_neg h4, if_neg h5, if_neg h6,
        if_pos h7] at h ⊢
      exact darr_mono f v h
    by_cases h8 : jsToString t = "object"
    · simp only [if_neg h1, if_neg h2, if_neg h3, if_neg h4, if_neg h5, if_neg h6,
        if_neg h7, if_pos h8] at h ⊢
      exact dobj_mono f v h
    · simp [h1, h2, h3, h4, h5, h6, h7, h8]

theorem darr_mono : ∀ (f : Nat) (v : Option JVal),
    deserialize_array f v ≠ .error .outOfFuel →
    deserialize_array (f + 1) v = deserialize_array f v
  | 0, v, h => absurd rfl h
  | f + 1, v, h => by
    cases v with
    | none => rfl
    | some d =>
      cases d with
      | jarr xs =>
        simp only [deserialize_array] at h ⊢
        have hi : deserialize_items f xs ≠ .error .outOfFuel := by
          rcases hx : deserialize_items f xs with e | items <;> rw [hx] at h
          · intro hc; injection hc with hc; rw [hc] at h; exact h rfl
          · simp [hx]
        rw [ditems_mono f xs hi]
      | _ => rfl

theorem ditems_mono : ∀ (f : Nat) (xs : List JVal),
    deserialize_items f xs ≠ .error .outOfFuel →
    deserialize_items (f + 1) xs = deserialize_items f xs
  | f, [], _ => by cases f <;> rfl
  | 0, _ :: _, h => absurd rfl h
  | f + 1, item :: rest, h => by
    simp only [deserialize_items] at h ⊢
    by_cases hc : check_serialized item = true
    · rw [if_pos hc] at h
      rw [if_pos hc, if_pos hc]
      have hv : deserialize_value f (objGet item "type") (objGet item "value") ≠
          .error .outOfFuel := by
        intro hcon
        rw [hcon] at h
        exact h rfl
      rw [dval_mono f _ _ hv]
      rcases hx : deserialize_value f (objGet item "type") (objGet item "value")
        with e | x
      · rfl
      · have hr : deserialize_items f rest ≠ .error .outOfFuel := by
          intro hcon
          rw [hx, hcon] at h
          exact h rfl
        rw [ditems_mono f rest hr]
    · rw [if_neg hc, if_neg hc]

theorem dobj_mono : ∀ (f : Nat) (v : Option JVal),
    deserialize_object f v ≠ .error .outOfFuel →
    deserialize_object (f + 1) v = deserialize_object f v
  | 0, v, h => absurd rfl h
  | f + 1, v, h => by
    cases v with
    | none => rfl
    | some d =>
      cases d with
      | jobj fs =>
        simp only [deserialize_object] at h ⊢
        have hi : deserialize_fields f fs ≠ .error .outOfFuel := by
          rcases hx : deserialize_fields f fs with e | items <;> rw [hx] at h
          · intro hc; injection hc with hc; rw [hc] at h; exact h rfl
          · simp [hx]
        rw [dfields_mono f fs hi]
      | jarr xs =>
        simp only [deserialize_object] at h ⊢
        have hi : deserialize_fields f (enumFields xs) ≠ .error .outOfFuel := by
          rcases hx : deserialize_fields f (enumFields xs) with e | items <;> rw [hx] at h
          · intro hc; injection hc with hc; rw [hc] at h; exact h rfl
          · simp [hx]
        rw [dfields_mono f (enumFields xs) hi]
      | _ => rfl

theorem dfields_mono : ∀ (f : Nat) (fs : List (String × JVal)),
    deserialize_fields f fs ≠ .error .outOfFuel →
    deserialize_fields (f + 1) fs = deserialize_fields f fs
  | f, [], _ => by cases f <;> rfl
  | 0, _ :: _, h => absurd rfl h
  | f + 1, (k, item) :: rest, h => by
    simp only [deserialize_fields] at h ⊢
    by_cases hc : check_serialized item = true
    · rw [if_pos hc] at h
      rw [if_pos hc, if_pos hc]
      have hv : deserialize_value f (objGet item "type") (objGet item "value") ≠
          .error .outOfFuel := by
        intro hcon
        rw [hcon] at h
        exact h rfl
      rw [dval_mono f _ _ hv]
      rcases hx : deserialize_value f (objGet item "type") (objGet item "value")
        with e | x
      · rfl
      · have hr : deserialize_fields f rest ≠ .error .outOfFuel := by
          intro hcon
          rw [hx, hcon] at h
          exact h rfl
        rw [dfields_mono f rest hr]
    · rw [if_neg hc, if_neg hc]

end

theorem dval_mono_le {f g : Nat} (h : f ≤ g) {t v : Option JVal}
    (hf : deserialize_value f t v ≠ .error .outOfFuel) :
    deserialize_value g t v = deserialize_value f t v := by
  induction g with
  | zero =>
    have : f = 0 := by omega
    subst this
    rfl
  | succ g ih =>
    by_cases hfg : f = g + 1
    · subst hfg; rfl
    · have hle : f ≤ g := by omega
      rw [dval_mono g t v (by rw [ih hle]; exact hf), ih hle]

theorem dval_eq_of_ne_fuel {f g : Nat} {t v : Option JVal}
    (hf : deserialize_value f t v ≠ .error .outOfFuel)
    (hg : deserialize_value g t v ≠ .error .outOfFuel) :
    deserialize_value f t v = deserialize_value g t v := by
  by_cases h : f ≤ g
  · rw [dval_mono_le h hf]
  · rw [dval_mono_le (by omega : g ≤ f) hg]

theorem deserialize_boolean_ne_fuel (v : Option JVal) :
    deserialize_boolean v ≠ .error .outOfFuel := by
  unfold deserialize_boolean
  split <;> simp

mutual

theorem dval_fuel : ∀ (f : Nat) (t v : Option JVal), psize v + 1 < f →
    deserialize_value f t v ≠ .error .outOfFuel
  | 0, _, _, h => by omega
  | f + 1, t, v, h => by
    simp only [deserialize_value]
    by_cases h1 : jsToString t = "undefined"
    · simp [h1]
    by_cases h2 : jsToString t = "null"
    · simp [h1, h2]
    by_cases h3 : jsToString t = "string"
    · simp [h1, h2, h3]
    by_cases h4 : jsToString t = "number"
    · simp [h1, h2, h3, h4]
    by_cases h5 : jsToString t = "boolean"
    · simp only [if_neg h1, if_neg h2, if_neg h3, if_neg h4, if_pos h5]
      exact deserialize_boolean_ne_fuel v
    by_cases h6 : jsToString t = "date"
    · simp [h1, h2, h3, h4, h5, h6]
    by_cases h7 : jsToString t = "array"
    · simp only [if_neg h1, if_neg h2, if_neg h3, if_neg h4, if_neg h5, if_neg h6,
        if_pos h7]
      exact darr_fuel f v (by omega)
    by_cases h8 : jsToString t = "object"
    · simp only [if_neg h1, if_neg h2, if_neg h3, if_neg h4, if_neg h5, if_neg h6,
        if_neg h7, if_pos h8]
      exact dobj_fuel f v (by omega)
    · simp [h1, h2, h3, h4, h5, h6, h7, h8]

theorem darr_fuel : ∀ (f : Nat) (v : Option JVal), psize v < f →
    deserialize_array f v ≠ .error .outOfFuel
  | 0, v, h => by omega
  | f + 1, v, h => by
    cases v with
    | none => simp [deserialize_array]
    | some d =>
      cases d with
      | jarr xs =>
        simp only [deserialize_array]
        have hxs : jsizeList xs < f := by
          simp only [psize, jsize] at h
          omega
        have := ditems_fuel f xs hxs
        rcases hx : deserialize_items f xs with e | items
        · rw [hx] at this
          intro hcon
          injection hcon with hcon
          rw [hcon] at this
          exact this rfl
        · simp
      | jnull => simp [deserialize_array]
      | jstr s =>
        simp only [deserialize_array]
        by_cases hs : s = "" <;> simp [hs]
      | jbool b => simp [deserialize_array]
      | jnum q => simp [deserialize_array]
      | jobj fs => simp [deserialize_array]

theorem ditems_fuel : ∀ (f : Nat) (xs : List JVal), jsizeList xs < f →
    deserialize_items f xs ≠ .error .outOfFuel
  | f, [], _ => by cases f <;> simp [deserialize_items]
  | 0, x :: rest, h => by omega
  | f + 1, item :: rest, h => by
    simp only [deserialize_items]
    by_cases hc : check_serialized item = true
    · rw [if_pos hc]
      have hsz : jsizeList (item :: rest) = 1 + jsize item + jsizeList rest := rfl
      have hget := psize_objGet item "value"
      have hv := dval_fuel f (objGet item "type") (objGet item "value") (by omega)
      rcases hx : deserialize_value f (objGet item "type") (objGet item "value")
        with e | x
      · rw [hx] at hv
        intro hcon
        injection hcon with hcon
        rw [hcon] at hv
        exact hv rfl
      · have hr := ditems_fuel f rest (by have := jsize_pos item; omega)
        rcases hy : deserialize_items f rest with e | ys
        · rw [hy] at hr
          intro hcon
          injection hcon with hcon
          rw [hcon] at hr
          exact hr rfl
        · simp
    · rw [if_neg hc]
      simp

theorem dobj_fuel : ∀ (f : Nat) (v : Option JVal), psize v < f →
    deserialize_object f v ≠ .error .outOfFuel
  | 0, v, h => by omega
  | f + 1, v, h => by
    cases v with
    | none => simp [deserialize_object]
    | some d =>
      cases d with
      | jobj fs =>
        simp only [deserialize_object]
        have hfs : jsizeFields fs < f := by
          simp only [psize, jsize] at h
          omega
        have := dfields_fuel f fs hfs
        rcases hx : deserialize_fields f fs with e | items
        · rw [hx] at this
          intro hcon
          injection hcon with hcon
          rw [hcon] at this
          exact this rfl
        · simp
      | jarr xs =>
        simp only [deserialize_object]
        have hfs : jsizeFields (enumFields xs) < f := by
          rw [jsizeFields_enumFields]
          simp only [psize, jsize] at h
          omega
        have := dfields_fuel f (enumFields xs) hfs
        rcases hx : deserialize_fields f (enumFields xs) with e | items
        · rw [hx] at this
          intro hcon
          injection hcon with hcon
          rw [hcon] at this
          exact this rfl
        · simp
      | jnull => simp [deserialize_object]
      | jstr s =>
        simp only [deserialize_object]
        by_cases hs : s = "" <;> simp [hs]
      | jbool b => simp [deserialize_object]
      | jnum q => simp [deserialize_object]

theorem dfields_fuel : ∀ (f : Nat) (fs : List (String × JVal)), jsizeFields fs < f →
    deserialize_fields f fs ≠ .error .outOfFuel
  | f, [], _ => by cases f <;> simp [deserialize_fields]
  | 0, (k, item) :: rest, h => by omega
  | f + 1, (k, item) :: rest, h => by
    simp only [deserialize_fields]
    by_cases hc : check_serialized item = true
    · rw [if_pos hc]
      have hsz : jsizeFields ((k, item) :: rest) = 1 + jsize item + jsizeFields rest := rfl
      have hget := psize_objGet item "value"
      have hv := dval_fuel f (objGet item "type") (objGet item "value") (by omega)
      rcases hx : deserialize_value f (objGet item "type") (objGet item "value")
        with e | x
      · rw [hx] at hv
        intro hcon
        injection hcon with hcon
        rw [hcon] at hv
        exact hv rfl
      · have hr := dfields_fuel f rest (by have := jsize_pos item; omega)
        rcases hy : deserialize_fields f rest with e | ys
        · rw [hy] at hr
          intro hcon
          injection hcon with hcon
          rw [hcon] at hr
          exact hr rfl
        · simp
    · rw [if_neg hc]
      simp

end

theorem ditems_mono_le {f g : Nat} (h : f ≤ g) {xs : List JVal}
    (hf : deserialize_items f xs ≠ .error .outOfFuel) :
    deserialize_items g xs = deserialize_items f xs := by
  induction g with
  | zero =>
    have : f = 0 := by omega
    subst this
    rfl
  | succ g ih =>
    by_cases hfg : f = g + 1
    · subst hfg; rfl
    · have hle : f ≤ g := by omega
      rw [ditems_mono g xs (by rw [ih hle]; exact hf), ih hle]

theorem dfields_mono_le {f g : Nat} (h : f ≤ g) {fs : List (String × JVal)}
    (hf : deserialize_fields f fs ≠ .error .outOfFuel) :
    deserialize_fields g fs = deserialize_fields f fs := by
  induction g with
  | zero =>
    have : f = 0 := by omega
    subst this
    rfl
  | succ g ih =>
    by_cases hfg : f = g + 1
    · subst hfg; rfl
    · have hle : f ≤ g := by omega
      rw [dfields_mono g fs (by rw [ih hle]; exact hf), ih hle]

theorem ratTrunc_intCast (i : Int) : ratTrunc ((i : ℚ)) = i := by
  simp [ratTrunc, Rat.num_intCast, Rat.den_intCast]

theorem lookup_two_jsize {fs : List (String × JVal)} {k1 k2 : String} {v1 v2 : JVal}
    (h12 : k1 ≠ k2) (h1 : lookupFirst fs k1 = some v1)
    (h2 : lookupFirst fs k2 = some v2) :
    jsize v1 + jsize v2 + 2 ≤ jsizeFields fs := by
  induction fs with
  | nil => simp [lookupFirst] at h1
  | cons p rest ih =>
    obtain ⟨k, w⟩ := p
    simp only [lookupFirst] at h1 h2
    by_cases hk1 : k = k1
    · rw [if_pos hk1] at h1
      injection h1 with h1
      subst h1
      have hk2 : ¬(k = k2) := by rw [hk1]; exact h12
      rw [if_neg hk2] at h2
      have := lookupFirst_jsize h2
      simp only [jsizeFields]
      omega
    · rw [if_neg hk1] at h1
      by_cases hk2 : k = k2
      · rw [if_pos hk2] at h2
        injection h2 with h2
        subst h2
        have := lookupFirst_jsize h1
        simp only [jsizeFields]
        omega
      · rw [if_neg hk2] at h2
        have := ih h1 h2
        simp only [jsizeFields]
        omega

theorem thaw_ne_fuel (d : JVal) : thaw d ≠ .error .outOfFuel := by
  have hpos := jsize_pos d
  unfold thaw
  obtain ⟨f, hf⟩ : ∃ f, jsize d = f + 1 := ⟨jsize d - 1, by omega⟩
  rw [hf]
  simp only [deserialize_value]
  by_cases h1 : jsToString (objGet d "type") = "undefined"
  · simp [h1]
  have hobj : ∃ fs tv, d = .jobj fs ∧ lookupFirst fs "type" = some tv := by
    rcases hd : objGet d "type" with _ | tv
    · rw [hd] at h1
      exact absurd rfl h1
    · cases d with
      | jobj fs2 => exact ⟨fs2, tv, rfl, hd⟩
      | jnull => simp [objGet] at hd
      | jbool b => simp [objGet] at hd
      | jnum q => simp [objGet] at hd
      | jstr s => simp [objGet] at hd
      | jarr xs => simp [objGet] at hd
  obtain ⟨fs, tv, rfl, ht⟩ := hobj
  have hfs : f = jsizeFields fs := by
    simp only [jsize] at hf
    omega
  have hv_lt : psize (objGet (JVal.jobj fs) "value") < f := by
    simp only [objGet]
    rcases hl : lookupFirst fs "value" with _ | v
    · have := lookupFirst_jsize ht
      have := jsize_pos tv
      simp only [psize]
      omega
    · have := lookup_two_jsize (show ("type" : String) ≠ "value" by decide) ht hl
      simp only [psize]
      omega
  by_cases h2 : jsToString (objGet (JVal.jobj fs) "type") = "null"
  · simp [h1, h2]
  by_cases h3 : jsToString (objGet (JVal.jobj fs) "type") = "string"
  · simp [h1, h2, h3]
  by_cases h4 : jsToString (objGet (JVal.jobj fs) "type") = "number"
  · simp [h1, h2, h3, h4]
  by_cases h5 : jsToString (objGet (JVal.jobj fs) "type") = "boolean"
  · simp only [if_neg h1, if_neg h2, if_neg h3, if_neg h4, if_pos h5]
    exact deserialize_boolean_ne_fuel _
  by_cases h6 : jsToString (objGet (JVal.jobj fs) "type") = "date"
  · simp [h1, h2, h3, h4, h5, h6]
  by_cases h7 : jsToString (objGet (JVal.jobj fs) "type") = "array"
  · simp only [if_neg h1, if_neg h2, if_neg h3, if_neg h4, if_neg h5, if_neg h6,
      if_pos h7]
    exact darr_fuel f _ hv_lt
  by_cases h8 : jsToString (objGet (JVal.jobj fs) "type") = "object"
  · simp only [if_neg h1, if_neg h2, if_neg h3, if_neg h4, if_neg h5, if_neg h6,
      if_neg h7, if_pos h8]
    exact dobj_fuel f _ hv_lt
  · simp [h1, h2, h3, h4, h5, h6, h7, h8]

/-! ### The round trip of the serialization engine -/

mutual

theorem rt_val : ∀ {v : JSVal} {d : JVal}, storableWith true v = true →
    serialize_value v = .ok d →
    ∃ f, deserialize_value f (objGet d "type") (objGet d "value") = .ok v
  | .undef, d, _, hser => by
    injection hser with h
    subst h
    exact ⟨1, rfl⟩
  | .null, d, _, hser => by
    injection hser with h
    subst h
    exact ⟨1, rfl⟩
  | .str s, d, _, hser => by
    injection hser with h
    subst h
    exact ⟨1, rfl⟩
  | .num n, d, _, hser => by
    cases n <;> (injection hser with h; subst h; exact ⟨1, rfl⟩)
  | .bool b, d, _, hser => by
    injection hser with h
    subst h
    cases b <;> exact ⟨1, rfl⟩
  | .date ms, d, _, hser => by
    injection hser with h
    subst h
    cases ms with
    | none => exact ⟨1, rfl⟩
    | some i =>
      refine ⟨1, ?_⟩
      show Except.ok (JSVal.date (numToDateMs (strToNum (intToStr i)))) =
        .ok (.date (some i))
      rw [strToNum_intToStr]
      simp only [numToDateMs, ratTrunc_intCast]
  | .arr xs, d, hst, hser => by
    simp only [serialize_value] at hser
    rcases hs : serialize_items xs with e | ds <;> rw [hs] at hser
    · exact absurd hser (by simp)
    · injection hser with h
      subst h
      obtain ⟨f, hf⟩ := rt_items (by simpa [storableWith] using hst) hs
      refine ⟨f + 2, ?_⟩
      show deserialize_array (f + 1) (some (.jarr ds)) = .ok (.arr xs)
      simp only [deserialize_array]
      rw [hf]
  | .obj fs, d, hst, hser => by
    simp only [serialize_value] at hser
    rcases hs : serialize_fields fs with e | ds <;> rw [hs] at hser
    · exact absurd hser (by simp)
    · injection hser with h
      subst h
      obtain ⟨f, hf⟩ := rt_fields (by simpa [storableWith] using hst) hs
      refine ⟨f + 2, ?_⟩
      show deserialize_object (f + 1) (some (.jobj ds)) = .ok (.obj fs)
      simp only [deserialize_object]
      rw [hf]
  | .func, d, hst, _ => by simp [storableWith] at hst
  | .regexp, d, hst, _ => by simp [storableWith] at hst
  | .element, d, hst, _ => by simp [storableWith] at hst
  | .textnode, d, hst, _ => by simp [storableWith] at hst
  | .whitespace, d, hst, _ => by simp [storableWith] at hst

theorem rt_items : ∀ {xs : List JSVal} {ds : List JVal}, storableList true xs = true →
    serialize_items xs = .ok ds → ∃ f, deserialize_items f ds = .ok xs
  | [], ds, _, h => by
    injection h with h
    subst h
    exact ⟨0, rfl⟩
  | x :: rest, ds, hst, h => by
    rw [storableList, Bool.and_eq_true] at hst
    simp only [serialize_items] at h
    rcases hx : serialize_value x with e | d <;> rw [hx] at h
    · exact absurd h (by simp)
    · rcases hr : serialize_items rest with e | ds' <;> rw [hr] at h
      · exact absurd h (by simp)
      · injection h with h
        subst h
        obtain ⟨f1, hf1⟩ := rt_val hst.1 hx
        obtain ⟨f2, hf2⟩ := rt_items hst.2 hr
        refine ⟨max f1 f2 + 1, ?_⟩
        simp only [deserialize_items]
        rw [if_pos (serialize_check hx),
          dval_mono_le (le_max_left f1 f2) (by rw [hf1]; simp), hf1,
          ditems_mono_le (le_max_right f1 f2) (by rw [hf2]; simp), hf2]

theorem rt_fields : ∀ {fs : List (String × JSVal)} {ds : List (String × JVal)},
    storableFields true fs = true →
    serialize_fields fs = .ok ds → ∃ f, deserialize_fields f ds = .ok fs
  | [], ds, _, h => by
    injection h with h
    subst h
    exact ⟨0, rfl⟩
  | (k, v) :: rest, ds, hst, h => by
    rw [storableFields, Bool.and_eq_true] at hst
    simp only [serialize_fields] at h
    rcases hx : serialize_value v with e | d <;> rw [hx] at h
    · exact absurd h (by simp)
    · rcases hr : serialize_fields rest with e | ds' <;> rw [hr] at h
      · exact absurd h (by simp)
      · injection h with h
        subst h
        obtain ⟨f1, hf1⟩ := rt_val hst.1 hx
        obtain ⟨f2, hf2⟩ := rt_fields hst.2 hr
        refine ⟨max f1 f2 + 1, ?_⟩
        simp only [deserialize_fields]
        rw [if_pos (serialize_check hx),
          dval_mono_le (le_max_left f1 f2) (by rw [hf1]; simp), hf1,
          dfields_mono_le (le_max_right f1 f2) (by rw [hf2]; simp), hf2]

end

theorem thaw_serialize {v : JSVal} {d : JVal} (hst : storableWith true v = true)
    (hser : serialize_value v = .ok d) : thaw d = .ok v := by
  obtain ⟨f, hf⟩ := rt_val hst hser
  unfold thaw
  have hne : deserialize_value f (objGet d "type") (objGet d "value") ≠
      .error .outOfFuel := by
    rw [hf]; simp
  have hthaw := thaw_ne_fuel d
  unfold thaw at hthaw
  rw [dval_eq_of_ne_fuel hthaw hne, hf]

theorem roundTrip_ok {v : JSVal} (h : storableWith true v = true) :
    roundTrip v = .ok v := by
  obtain ⟨d, hd⟩ := storable_serialize h
  unfold roundTrip
  rw [hd]
  exact thaw_serialize h hd

mutual

theorem storable_mono : ∀ {v : JSVal}, storable v = true → storableWith true v = true
  | .undef, h => rfl
  | .null, _ => rfl
  | .str _, _ => rfl
  | .num _, _ => rfl
  | .bool _, _ => rfl
  | .date _, _ => rfl
  | .arr xs, h => by
    simp only [storable, storableWith] at h ⊢
    exact storable_mono_list h
  | .obj fs, h => by
    simp only [storable, storableWith] at h ⊢
    exact storable_mono_fields h
  | .func, h => by simp [storable, storableWith] at h
  | .regexp, h => by simp [storable, storableWith] at h
  | .element, h => by simp [storable, storableWith] at h
  | .textnode, h => by simp [storable, storableWith] at h
  | .whitespace, h => by simp [storable, storableWith] at h

theorem storable_mono_list : ∀ {xs : List JSVal},
    storableList false xs = true → storableList true xs = true
  | [], _ => rfl
  | x :: rest, h => by
    rw [storableList, Bool.and_eq_true] at h ⊢
    exact ⟨storable_mono h.1, storable_mono_list h.2⟩

theorem storable_mono_fields : ∀ {fs : List (String × JSVal)},
    storableFields false fs = true → storableFields true fs = true
  | [], _ => rfl
  | (k, v) :: rest, h => by
    rw [storableFields, Bool.and_eq_true] at h ⊢
    exact ⟨storable_mono h.1, storable_mono_fields h.2⟩

end

/-! ### Backend and facade lemmas -/

theorem getItemS_setItemS (st : Store) (k : String) (v : JVal) :
    getItemS (setItemS st k v) k = some v := by
  induction st with
  | nil => simp [setItemS, getItemS]
  | cons p rest ih =>
    obtain ⟨k', v'⟩ := p
    simp only [setItemS]
    by_cases hk : k' = k
    · rw [if_pos hk]
      simp [getItemS]
    · rw [if_neg hk]
      simp only [getItemS, if_neg hk]
      exact ih

theorem isUndef_false {v : JSVal} (h : v ≠ .undef) : isUndef v = false := by
  cases v <;> first | rfl | exact absurd rfl h

theorem storable_type_ok {v : JSVal} (h : storableWith true v = true) :
    (decide (typeOf v = "function") || decide (typeOf v = "regexp") ||
     decide (typeOf v = "element") || decide (typeOf v = "textnode") ||
     decide (typeOf v = "whitespace")) = false := by
  cases v <;> first | rfl | simp [storableWith] at h

theorem set_ok (pfx : String) (st : Store) {k : String} {v : JSVal} (now : Int)
    (hk : k ≠ "") (hv : storableWith true v = true) (hvu : v ≠ .undef) :
    (cache_set pfx st (.str k) v .undef now).2 = .ok v ∧
    ∃ doc, serialize_value (.obj [("value", v), ("expires", .undef)]) = .ok doc ∧
      (cache_set pfx st (.str k) v .undef now).1 =
        setItemS (removeItemS st (pfx ++ k)) (pfx ++ k) doc := by
  have hentry : storableWith true (.obj [("value", v), ("expires", .undef)]) = true := by
    simp [storableWith, storableFields, hv]
  obtain ⟨doc, hdoc⟩ := storable_serialize hentry
  have hbad := storable_type_ok hv
  have hred : cache_set pfx st (.str k) v .undef now =
      (setItemS (removeItemS st (pfx ++ k)) (pfx ++ k) doc, .ok v) := by
    simp only [cache_set]
    rw [if_neg hk, if_neg (by rw [isUndef_false hvu]; simp)]
    rw [if_neg (by rw [hbad]; simp)]
    rw [if_neg (by decide : ¬((!isUndef JSVal.undef &&
      (!isNumberJS JSVal.undef && !isDateJS JSVal.undef)) = true))]
    simp only [freeze, isDateJS, isNumericJS, Bool.false_eq_true, if_false]
    rw [hdoc]
  rw [hred]
  exact ⟨rfl, doc, hdoc, rfl⟩

theorem fetch_after_set (pfx : String) (st : Store) {k : String} {v : JSVal} (now : Int)
    (hk : k ≠ "") (hv : storableWith true v = true) (hvu : v ≠ .undef) :
    fetch_value pfx (cache_set pfx st (.str k) v .undef now).1 k =
      .ok (.obj [("value", v), ("expires", .undef)]) := by
  obtain ⟨-, doc, hdoc, hst⟩ := set_ok pfx st now hk hv hvu
  have hentry : storableWith true (.obj [("value", v), ("expires", .undef)]) = true := by
    simp [storableWith, storableFields, hv]
  rw [hst]
  unfold fetch_value
  rw [getItemS_setItemS]
  exact thaw_serialize hentry hdoc

theorem get_after_set (pfx : String) (st : Store) {k : String} {v : JSVal} (now : Int)
    (hk : k ≠ "") (hv : storableWith true v = true) (hvu : v ≠ .undef) (now' : Int) :
    cache_get pfx (cache_set pfx st (.str k) v .undef now).1 k now' =
      ((cache_set pfx st (.str k) v .undef now).1, .ok v) := by
  have hf := fetch_after_set pfx st now hk hv hvu
  unfold cache_get
  rw [hf]
  rfl

/-! ### Prefix scanning: `keys` and `clear` -/

theorem removeItemS_eq_filter (st : Store) (k : String) :
    removeItemS st k = st.filter (fun p => p.1 ≠ k) := by
  induction st with
  | nil => rfl
  | cons p rest ih =>
    obtain ⟨k', v'⟩ := p
    simp only [removeItemS, List.filter]
    by_cases hk : k' = k
    · rw [if_pos hk, ih]
      simp [hk]
    · rw [if_neg hk, ih]
      simp [hk]

theorem ownKey_append (pfx k : String) : ownKey pfx (pfx ++ k) = true := by
  unfold ownKey
  rw [String.data_append, List.isPrefixOf_iff_prefix]
  exact List.prefix_append pfx.data k.data

theorem keyStrip_own {pfx s : String} (h : ownKey pfx s = true) :
    keyStrip pfx s = some ⟨s.data.drop pfx.data.length⟩ ∧
      pfx ++ ⟨s.data.drop pfx.data.length⟩ = s := by
  unfold ownKey at h
  constructor
  · unfold keyStrip firstOccur
    rw [if_pos h]
    simp
  · rw [List.isPrefixOf_iff_prefix] at h
    obtain ⟨t, ht⟩ := h
    rw [String.ext_iff, String.data_append]
    show pfx.data ++ (s.data.drop pfx.data.length) = s.data
    rw [← ht, List.drop_left]

theorem keyStrip_append (pfx k : String) : keyStrip pfx (pfx ++ k) = some k := by
  obtain ⟨h1, -⟩ := keyStrip_own (ownKey_append pfx k)
  rw [h1, String.data_append, List.drop_left]

theorem foldl_remove_eq_filter (pfx : String) (ks : List String) (st : Store) :
    ks.foldl (fun s k => cache_remove pfx s k) st =
      st.filter (fun p => ks.all (fun k => p.1 ≠ pfx ++ k)) := by
  induction ks generalizing st with
  | nil => simp
  | cons k0 ks ih =>
    rw [List.foldl_cons, ih]
    simp only [cache_remove, removeItemS_eq_filter, List.filter_filter]
    apply List.filter_congr
    intro p _
    simp only [List.all_cons]
    rw [Bool.and_comm]

theorem cache_clear_eq_filter (pfx : String) (st : Store) :
    cache_clear pfx st = st.filter (fun p => !(ownKey pfx p.1)) := by
  unfold cache_clear
  rw [foldl_remove_eq_filter]
  apply List.filter_congr
  intro p hp
  by_cases how : ownKey pfx p.1 = true
  · obtain ⟨h1, h2⟩ := keyStrip_own how
    have hmem : (⟨p.1.data.drop pfx.data.length⟩ : String) ∈ cache_keys pfx st := by
      rw [cache_keys, List.mem_filterMap]
      exact ⟨p, hp, h1⟩
    rw [how]
    simp only [Bool.not_true]
    rw [List.all_eq_false]
    refine ⟨_, hmem, ?_⟩
    rw [h2]
    simp
  · have how' : ownKey pfx p.1 = false := by
      cases hx : ownKey pfx p.1
      · rfl
      · exact absurd hx how
    rw [how']
    simp only [Bool.not_false]
    rw [List.all_eq_true]
    intro k _
    simp only [ne_eq, decide_eq_true_eq]
    intro hcon
    rw [hcon] at how
    exact how (ownKey_append pfx k)

theorem cache_keys_complete (pfx : String) (st : Store)
    (hno : ∀ p ∈ st, ownKey pfx p.1 = true ∨ keyStrip pfx p.1 = none) :
    ∀ k, k ∈ cache_keys pfx st ↔ ∃ v, (pfx ++ k, v) ∈ st := by
  intro k
  constructor
  · intro hk
    rw [cache_keys, List.mem_filterMap] at hk
    obtain ⟨p, hp, hstrip⟩ := hk
    rcases hno p hp with how | hnone
    · obtain ⟨h1, h2⟩ := keyStrip_own how
      rw [h1] at hstrip
      injection hstrip with hstrip
      subst hstrip
      rw [h2]
      exact ⟨p.2, hp⟩
    · rw [hnone] at hstrip
      exact absurd hstrip (by simp)
  · rintro ⟨v, hv⟩
    rw [cache_keys, List.mem_filterMap]
    exact ⟨(pfx ++ k, v), hv, keyStrip_append pfx k⟩

/-! ### In-memory adapter: the invariant -/

theorem memOwn_none {s : MemStorage} {k : String} :
    memOwn s k = none ↔ k ∉ s.items.map Prod.fst := by
  unfold memOwn
  rcases hf : s.items.find? (fun p => p.1 = k) with _ | q <;> rw [hf]
  · rw [List.find?_eq_none] at hf
    simp only [Option.map_none', true_iff]
    intro hmem
    rw [List.mem_map] at hmem
    obtain ⟨p, hp, hfst⟩ := hmem
    exact hf p hp (by simp [hfst])
  · have hq1 : q.1 = k := by simpa using List.find?_some hf
    have hq2 := List.mem_of_find?_eq_some hf
    simp only [Option.map_some', false_iff, not_not]
    constructor
    · intro hc
      exact absurd hc (by simp)
    · intro hc
      exact absurd (List.mem_map.mpr ⟨q, hq2, hq1⟩) hc

theorem memOwn_some_mem {s : MemStorage} {k : String} {w : JSVal}
    (h : memOwn s k = some w) : (k, w) ∈ s.items := by
  unfold memOwn at h
  rcases hf : s.items.find? (fun p => p.1 = k) with _ | q <;> rw [hf] at h
  · exact absurd h (by simp)
  · simp only [Option.map_some'] at h
    injection h with h
    have hq1 : q.1 = k := by simpa using List.find?_some hf
    have hq2 := List.mem_of_find?_eq_some hf
    subst h
    have heta : (k, q.2) = q := by
      rw [← hq1]
    rw [heta]
    exact hq2

theorem memGetItem_plain {s : MemStorage} {k : String} (h : plainKey k = true) :
    memGetItem s k = memOwn s k := by
  unfold memGetItem
  rcases ho : memOwn s k with _ | v
  · show protoProp k = none
    unfold plainKey at h
    exact Option.isNone_iff_eq_none.mp h
  · rfl

theorem assocSet_map_fst_mem (items : List (String × JSVal)) {k : String} (v : JSVal)
    (h : k ∈ items.map Prod.fst) :
    (assocSet items k v).map Prod.fst = items.map Prod.fst := by
  induction items with
  | nil => simp at h
  | cons p rest ih =>
    simp only [List.map_cons, List.mem_cons] at h
    simp only [assocSet]
    by_cases hk : p.1 = k
    · rw [if_pos hk]
      simp [hk]
    · rw [if_neg hk]
      rcases h with h | h
      · exact absurd h.symm hk
      · simp [ih h]

theorem assocSet_not_mem {items : List (String × JSVal)} {k : String} (v : JSVal)
    (h : k ∉ items.map Prod.fst) : assocSet items k v = items ++ [(k, v)] := by
  induction items with
  | nil => rfl
  | cons p rest ih =>
    simp only [List.map_cons, List.mem_cons, not_or] at h
    simp only [assocSet]
    rw [if_neg (fun hc => h.1 hc.symm), ih h.2]
    rfl

theorem assocSet_values {items : List (String × JSVal)} {k : String} {v : JSVal} :
    ∀ q ∈ assocSet items k v, q.2 = v ∨ q ∈ items := by
  induction items with
  | nil =>
    intro q hq
    simp only [assocSet, List.mem_singleton] at hq
    subst hq
    exact Or.inl rfl
  | cons p rest ih =>
    intro q hq
    simp only [assocSet] at hq
    by_cases hk : p.1 = k
    · rw [if_pos hk] at hq
      rcases List.mem_cons.mp hq with h | h
      · subst h
        exact Or.inl rfl
      · exact Or.inr (List.mem_cons_of_mem _ h)
    · rw [if_neg hk] at hq
      rcases List.mem_cons.mp hq with h | h
      · subst h
        exact Or.inr (List.mem_cons_self _ _)
      · rcases ih q h with h' | h'
        · exact Or.inl h'
        · exact Or.inr (List.mem_cons_of_mem _ h')

theorem memOwn_assocSet (items : List (String × JSVal)) (k : String) (v : JSVal)
    (keys : List String) (len : Int) :
    memOwn ⟨assocSet items k v, keys, len⟩ k = some v := by
  induction items with
  | nil =>
    unfold memOwn assocSet
    rw [List.find?_cons_of_pos _ (by simp)]
    rfl
  | cons p rest ih =>
    unfold memOwn at ih ⊢
    simp only [assocSet]
    by_cases hk : p.1 = k
    · rw [if_pos hk]
      rw [List.find?_cons_of_pos _ (by simp)]
      rfl
    · rw [if_neg hk]
      rw [List.find?_cons_of_neg _ (by simp [hk])]
      exact ih

theorem map_fst_filter_ne (items : List (String × JSVal)) (k : String) :
    (items.filter (fun p => p.1 ≠ k)).map Prod.fst =
      (items.map Prod.fst).filter (fun x => x ≠ k) := by
  induction items with
  | nil => rfl
  | cons p rest ih =>
    by_cases hp : p.1 = k <;> simp [List.filter_cons, hp] <;> simpa using ih

theorem memInv_init : memInv memInit :=
  ⟨rfl, List.nodup_nil, rfl, by intro p hp; simp [memInit] at hp⟩

theorem memInv_apply {s : MemStorage} {op : MemOp} (hInv : memInv s)
    (hop : opOk op = true) : memInv (memApply s op) := by
  obtain ⟨hkeys, hnd, hlen, hall⟩ := hInv
  cases op with
  | clearI => exact memInv_init
  | setI k v =>
    simp only [opOk, Bool.and_eq_true] at hop
    have hbr : memGetItem s k = memOwn s k := memGetItem_plain hop.2
    simp only [memApply, memSetItem, hbr]
    by_cases ht : truthyOpt (memOwn s k) = true
    · rw [if_pos ht]
      have hmem : k ∈ s.items.map Prod.fst := by
        rcases hg : memOwn s k with _ | w
        · rw [hg] at ht
          exact absurd ht (by simp [truthyOpt])
        · exact List.mem_map.mpr ⟨(k, w), memOwn_some_mem hg, rfl⟩
      have hfst := assocSet_map_fst_mem s.items v hmem
      refine ⟨?_, ?_, ?_, ?_⟩
      · simp only []
        rw [hfst]
        exact hkeys
      · simp only []
        rw [hfst]
        exact hnd
      · simp only []
        have : (assocSet s.items k v).length = s.items.length := by
          have h1 := congrArg List.length hfst
          simpa using h1
        rw [this]
        exact hlen
      · intro p hp
        rcases assocSet_values p hp with h | h
        · rw [h]
          exact hop.1
        · exact hall p h
    · rw [if_neg ht]
      have hnone : memOwn s k = none := by
        rcases hg : memOwn s k with _ | w
        · rfl
        · have := hall (k, w) (memOwn_some_mem hg)
          rw [hg] at ht
          simp only [truthyOpt] at ht
          exact absurd this ht
      have hmem : k ∉ s.items.map Prod.fst := memOwn_none.mp hnone
      rw [assocSet_not_mem v hmem]
      refine ⟨?_, ?_, ?_, ?_⟩
      · simp only []
        rw [hkeys, List.map_append]
        rfl
      · simp only [List.map_append]
        rw [List.nodup_append]
        refine ⟨hnd, List.nodup_singleton _, ?_⟩
        intro a ha hb
        simp only [List.map_cons, List.map_nil, List.mem_singleton] at hb
        subst hb
        exact hmem ha
      · simp only [List.length_append, List.length_singleton]
        omega
      · intro p hp
        rcases List.mem_append.mp hp with h | h
        · exact hall p h
        · simp only [List.mem_singleton] at h
          subst h
          exact hop.1
  | removeI k =>
    simp only [opOk] at hop
    have hbr : memGetItem s k = memOwn s k := memGetItem_plain hop
    simp only [memApply, memRemoveItem, hbr]
    by_cases ht : truthyOpt (memOwn s k) = true
    · rw [ht]
      simp only [Bool.not_true, Bool.false_eq_true, if_false]
      have hsome : ∃ w, memOwn s k = some w := by
        rcases hg : memOwn s k with _ | w
        · rw [hg] at ht
          exact absurd ht (by simp [truthyOpt])
        · exact ⟨w, rfl⟩
      obtain ⟨w, hw⟩ := hsome
      have hmem : k ∈ s.items.map Prod.fst :=
        List.mem_map.mpr ⟨(k, w), memOwn_some_mem hw, rfl⟩
      have hfst : (assocDrop s.items k).map Prod.fst =
          (s.items.map Prod.fst).filter (fun x => x ≠ k) := by
        unfold assocDrop
        exact map_fst_filter_ne s.items k
      have herase : (s.items.map Prod.fst).erase k =
          (s.items.map Prod.fst).filter (fun x => x ≠ k) := by
        have := List.Nodup.erase_eq_filter hnd k
        rw [this]
        apply List.filter_congr
        intro a _
        by_cases hak : a = k <;> simp [hak]
      refine ⟨?_, ?_, ?_, ?_⟩
      · simp only []
        rw [hkeys, herase, hfst]
      · simp only []
        rw [hfst]
        exact List.Nodup.filter _ hnd
      · simp only []
        have h1 : (assocDrop s.items k).length =
            ((s.items.map Prod.fst).filter (fun x => x ≠ k)).length := by
          have := congrArg List.length hfst
          simpa using this
        have h2 : ((s.items.map Prod.fst).filter (fun x => x ≠ k)).length =
            (s.items.map Prod.fst).length - 1 := by
          rw [← herase]
          exact List.length_erase_of_mem hmem
        have h3 : 0 < (s.items.map Prod.fst).length := List.length_pos_of_mem hmem
        rw [List.length_map] at h3
        rw [h1, h2, List.length_map]
        rw [hlen]
        omega
      · intro p hp
        exact hall p (List.mem_of_mem_filter hp)
    · rw [show truthyOpt (memOwn s k) = false by
        cases hx : truthyOpt (memOwn s k)
        · rfl
        · exact absurd hx ht]
      simp only [Bool.not_false, if_true]
      exact ⟨hkeys, hnd, hlen, hall⟩

theorem memInv_run {s : MemStorage} (hInv : memInv s) :
    ∀ {ops : List MemOp}, ops.all opOk = true → memInv (memRun s ops) := by
  intro ops
  induction ops generalizing s with
  | nil => intro _; exact hInv
  | cons op rest ih =>
    intro h
    rw [List.all_cons, Bool.and_eq_true] at h
    exact ih (memInv_apply hInv h.1) h.2

theorem memOwn_some_of_mem {s : MemStorage} {k : String}
    (h : k ∈ s.items.map Prod.fst) : ∃ w, memOwn s k = some w := by
  have : (s.items.find? (fun p => p.1 = k)).isSome := by
    rw [List.find?_isSome]
    rw [List.mem_map] at h
    obtain ⟨p, hp, hfst⟩ := h
    exact ⟨p, hp, by simp [hfst]⟩
  rcases hf : s.items.find? (fun p => p.1 = k) with _ | q
  · rw [hf] at this
    exact absurd this (by simp)
  · exact ⟨q.2, by unfold memOwn; rw [hf]; rfl⟩

/-! ### Error on malformed nested nodes (deserialization) -/

theorem ditems_err_of_malformed : ∀ (f : Nat) {xs : List JVal},
    (∃ item ∈ xs, check_serialized item = false) →
    ∃ e, deserialize_items f xs = .error e
  | _, [], h => by
    obtain ⟨item, hmem, -⟩ := h
    simp at hmem
  | 0, x :: rest, _ => ⟨.outOfFuel, rfl⟩
  | f + 1, item :: rest, h => by
    simp only [deserialize_items]
    by_cases hc : check_serialized item = true
    · rw [if_pos hc]
      obtain ⟨w, hwmem, hw⟩ := h
      rcases List.mem_cons.mp hwmem with hcase | hcase
      · subst hcase
        rw [hw] at hc
        exact absurd hc (by simp)
      · rcases hx : deserialize_value f (objGet item "type") (objGet item "value")
          with e | x
        · exact ⟨e, rfl⟩
        · obtain ⟨e, he⟩ := ditems_err_of_malformed f ⟨w, hcase, hw⟩
          rw [he]
          exact ⟨e, rfl⟩
    · rw [if_neg hc]
      exact ⟨.invalidSerialized, rfl⟩

theorem dfields_err_of_malformed : ∀ (f : Nat) {fs : List (String × JVal)},
    (∃ kv ∈ fs, check_serialized kv.2 = false) →
    ∃ e, deserialize_fields f fs = .error e
  | _, [], h => by
    obtain ⟨kv, hmem, -⟩ := h
    simp at hmem
  | 0, x :: rest, _ => ⟨.outOfFuel, rfl⟩
  | f + 1, (k, item) :: rest, h => by
    simp only [deserialize_fields]
    by_cases hc : check_serialized item = true
    · rw [if_pos hc]
      obtain ⟨w, hwmem, hw⟩ := h
      rcases List.mem_cons.mp hwmem with hcase | hcase
      · subst hcase
        simp only [] at hw
        rw [hw] at hc
        exact absurd hc (by simp)
      · rcases hx : deserialize_value f (objGet item "type") (objGet item "value")
          with e | x
        · exact ⟨e, rfl⟩
        · obtain ⟨e, he⟩ := dfields_err_of_malformed f ⟨w, hcase, hw⟩
          rw [he]
          exact ⟨e, rfl⟩
    · rw [if_neg hc]
      exact ⟨.invalidSerialized, rfl⟩

theorem darr_err_of_malformed (f : Nat) {xs : List JVal}
    (h : ∃ item ∈ xs, check_serialized item = false) :
    ∃ e, deserialize_array f (some (.jarr xs)) = .error e := by
  cases f with
  | zero => exact ⟨.outOfFuel, rfl⟩
  | succ f =>
    simp only [deserialize_array]
    obtain ⟨e, he⟩ := ditems_err_of_malformed f h
    rw [he]
    exact ⟨e, rfl⟩

theorem dobj_err_of_malformed (f : Nat) {fs : List (String × JVal)}
    (h : ∃ kv ∈ fs, check_serialized kv.2 = false) :
    ∃ e, deserialize_object f (some (.jobj fs)) = .error e := by
  cases f with
  | zero => exact ⟨.outOfFuel, rfl⟩
  | succ f =>
    simp only [deserialize_object]
    obtain ⟨e, he⟩ := dfields_err_of_malformed f h
    rw [he]
    exact ⟨e, rfl⟩

theorem cache_get_ok {pfx : String} {st : Store} {key : String} {now : Int}
    {item : JSVal} (hf : fetch_value pfx st key = .ok item)
    (hu : isUndef item = false) :
    cache_get pfx st key now =
      if truthy (jsProp item "expires") && jsLtNow (jsProp item "expires") now
      then (removeItemS st (pfx ++ key), .ok .undef)
      else (st, .ok (jsProp item "value")) := by
  unfold cache_get
  rw [hf]
  simp [hu]

/-! ## Claims -/

/-- C1: for every storable Value v (string, finite number, NaN, +Infinity,
-Infinity, boolean, date, null, and every nested array/object combination
of these), deserializing the serialization of v yields a value observably
equal to v — same variant and same content, dates compared by their
epoch-millisecond value and NaN by its NaN-ness (here dates carry their
epoch value and NaN is a constructor, so observable equality is
equality). -/
theorem C1_round_trip (v : JSVal) (h : storable v = true) : roundTrip v = .ok v :=
  roundTrip_ok (storable_mono h)

/-- C1 witness: the round trip at a concrete nested value exercising
strings, NaN, both infinities, a finite number, booleans, a negative
date, null, arrays and objects. -/
theorem C1_round_trip_witness :
    storable (JSVal.obj [("s", .str "two"), ("n", .num .nan), ("i", .num .inf),
      ("m", .num .negInf), ("q", .num (.finite 42)), ("b", .bool true),
      ("d", .date (some (-5))), ("z", .null),
      ("a", .arr [.str "x", .num (.finite 1), .null])]) = true ∧
    roundTrip (JSVal.obj [("s", .str "two"), ("n", .num .nan), ("i", .num .inf),
      ("m", .num .negInf), ("q", .num (.finite 42)), ("b", .bool true),
      ("d", .date (some (-5))), ("z", .null),
      ("a", .arr [.str "x", .num (.finite 1), .null])]) =
      .ok (JSVal.obj [("s", .str "two"), ("n", .num .nan), ("i", .num .inf),
        ("m", .num .negInf), ("q", .num (.finite 42)), ("b", .bool true),
        ("d", .date (some (-5))), ("z", .null),
        ("a", .arr [.str "x", .num (.finite 1), .null])]) :=
  ⟨rfl, C1_round_trip _ rfl⟩

/-- C2 counterexample: `set` on an array containing a function, against a
backend already holding an entry under the key, raises the serialization
error only AFTER `remove` has deleted the existing entry: the backend ends
up empty, not as it was before the call. -/
theorem C2_counterexample :
    (cache_set "p." [("p.k", JVal.jnull)] (.str "k") (.arr [.func]) .undef 0).1 = [] ∧
    (cache_set "p." [("p.k", JVal.jnull)] (.str "k") (.arr [.func]) .undef 0).2 =
      .error (.invalidValueType "function") ∧
    ([] : Store) ≠ [("p.k", JVal.jnull)] :=
  ⟨rfl, rfl, by simp⟩

/-- C2 (amended): if `set` raises InvalidKey, InvalidValue, a top-level
UnsupportedType, or InvalidExpiration, the error is raised before any
backend mutation and the backend is exactly as before the call; an
unsupported type nested inside an array or object member, however, is
detected only during serialization, after the existing entry under the
key has already been removed. -/
theorem C2_validation_before_mutation (pfx : String) (st : Store)
    (key value expires : JSVal) (now : Int)
    (h : (cache_set pfx st key value expires now).2 = .error .invalidKey ∨
         (cache_set pfx st key value expires now).2 = .error .invalidValue ∨
         (∃ t, (cache_set pfx st key value expires now).2 = .error (.unsupportedType t)) ∨
         (cache_set pfx st key value expires now).2 = .error .invalidExpiration) :
    (cache_set pfx st key value expires now).1 = st := by
  cases key with
  | str k =>
    simp only [cache_set] at h ⊢
    by_cases h1 : k = ""
    · rw [if_pos h1]
    · rw [if_neg h1] at h ⊢
      by_cases h2 : isUndef value = true
      · rw [if_pos h2]
      · rw [if_neg h2] at h ⊢
        by_cases h3 : (decide (typeOf value = "function") ||
            decide (typeOf value = "regexp") || decide (typeOf value = "element") ||
            decide (typeOf value = "textnode") ||
            decide (typeOf value = "whitespace")) = true
        · rw [if_pos h3]
        · rw [if_neg h3] at h ⊢
          by_cases h4 : (!isUndef expires &&
              (!isNumberJS expires && !isDateJS expires)) = true
          · rw [if_pos h4]
          · rw [if_neg h4] at h ⊢
            exfalso
            simp only [freeze] at h
            rcases hser : serialize_value
              (.obj [("value", value), ("expires",
                if isDateJS expires = true then expires
                else if isNumericJS expires = true
                  then .date (some (dateAdd now expires)) else .undef)])
              with e | doc <;> rw [hser] at h
            · obtain ⟨t, rfl⟩ := serialize_value_err hser
              rcases h with h | h | ⟨u, h⟩ | h <;> simp at h
            · rcases h with h | h | ⟨u, h⟩ | h <;> simp at h
  | undef => rfl
  | null => rfl
  | num n => rfl
  | bool b => rfl
  | date ms => rfl
  | arr xs => rfl
  | obj fs => rfl
  | func => rfl
  | regexp => rfl
  | element => rfl
  | textnode => rfl
  | whitespace => rfl

/-- C2 witness: an InvalidKey raise (empty key) leaves a non-empty backend
untouched. -/
theorem C2_validation_before_mutation_witness :
    (cache_set "p." [("p.k", JVal.jnull)] (.str "") (.num (.finite 1)) .undef 0).1 =
      [("p.k", JVal.jnull)] :=
  C2_validation_before_mutation "p." [("p.k", JVal.jnull)] (.str "")
    (.num (.finite 1)) .undef 0 (Or.inl rfl)

/-- C3 counterexample: a shared backend holding only the foreign key
"xp.a" — which does not start with the prefix "p." but contains it — makes
`keys()` report the spurious suffix "a", even though no entry exists under
the prefixed key "p.a". -/
theorem C3_counterexample :
    cache_keys "p." [("xp.a", JVal.jnull)] = ["a"] ∧
    getItemS [("xp.a", JVal.jnull)] ("p." ++ "a") = none ∧
    ownKey "p." "xp.a" = false :=
  ⟨rfl, rfl, rfl⟩

/-- C3 (amended): `clear()` removes exactly the backend entries whose keys
start with this cache's prefix and leaves every other entry unchanged;
`keys()` strips at the FIRST OCCURRENCE of the prefix anywhere in the
key, so it returns exactly the suffixes k with prefix+k present only
when no backend key contains the prefix other than as a leading prefix —
a foreign key containing the prefix internally contributes a spurious
suffix. -/
theorem C3_clear_scoped_keys_scanned (pfx : String) (st : Store) :
    cache_clear pfx st = st.filter (fun p => !(ownKey pfx p.1)) ∧
    ((∀ p ∈ st, ownKey pfx p.1 = true ∨ keyStrip pfx p.1 = none) →
      ∀ k, k ∈ cache_keys pfx st ↔ ∃ v, (pfx ++ k, v) ∈ st) :=
  ⟨cache_clear_eq_filter pfx st, cache_keys_complete pfx st⟩

/-- C3 witness: on a shared backend with one own key and one foreign key
(not containing the prefix), `clear` removes exactly the own entry and
`keys` contains exactly the own suffix. -/
theorem C3_clear_scoped_keys_scanned_witness :
    cache_clear "p." [("p.a", JVal.jnull), ("other", JVal.jnull)] =
      [("other", JVal.jnull)] ∧
    ("a" ∈ cache_keys "p." [("p.a", JVal.jnull), ("other", JVal.jnull)] ↔
      ∃ v, ("p." ++ "a", v) ∈ [("p.a", JVal.jnull), ("other", JVal.jnull)]) := by
  have h := C3_clear_scoped_keys_scanned "p." [("p.a", JVal.jnull), ("other", JVal.jnull)]
  refine ⟨?_, h.2 (by decide) "a"⟩
  rw [h.1]
  rfl

/-- C4: an entry fetched with an absolute expiration timestamp t is, at
current time now, evicted (removed) with Absent returned when t < now
strictly; when t = now or t > now the entry's inner value is returned and
nothing is removed — expiration exactly at the current time is NOT
expired. -/
theorem C4_expiration_strictly_less (pfx : String) (st : Store) (key : String)
    (t now : Int) (item : JSVal) (hf : fetch_value pfx st key = .ok item)
    (hex : jsProp item "expires" = .date (some t)) :
    (t < now → cache_get pfx st key now = (removeItemS st (pfx ++ key), .ok .undef)) ∧
    (now ≤ t → cache_get pfx st key now = (st, .ok (jsProp item "value"))) := by
  have hu : isUndef item = false := by
    cases item <;> first | rfl | (exfalso; simp [jsProp] at hex)
  rw [cache_get_ok hf hu, hex]
  constructor
  · intro ht
    rw [if_pos (by simp only [truthy, jsLtNow, Bool.true_and, decide_eq_true_eq]; exact ht)]
  · intro ht
    rw [if_neg (by simp only [truthy, jsLtNow, Bool.true_and, decide_eq_true_eq]; omega)]

/-- C4 witness: a value stored with TTL 100 at time 0 is evicted by a get
at time 200 and still returned (with the backend untouched) by a get at
time 100 — the boundary instant. -/
theorem C4_expiration_strictly_less_witness :
    cache_get "p." (cache_set "p." [] (.str "k") (.num (.finite 42))
        (.num (.finite 100)) 0).1 "k" 200 = ([], .ok .undef) ∧
    cache_get "p." (cache_set "p." [] (.str "k") (.num (.finite 42))
        (.num (.finite 100)) 0).1 "k" 100 =
      ((cache_set "p." [] (.str "k") (.num (.finite 42))
        (.num (.finite 100)) 0).1, .ok (.num (.finite 42))) := by
  have h := C4_expiration_strictly_less "p."
    (cache_set "p." [] (.str "k") (.num (.finite 42)) (.num (.finite 100)) 0).1
    "k" 100 200
    (.obj [("value", .num (.finite 42)), ("expires", .date (some 100))]) rfl rfl
  have h2 := C4_expiration_strictly_less "p."
    (cache_set "p." [] (.str "k") (.num (.finite 42)) (.num (.finite 100)) 0).1
    "k" 100 100
    (.obj [("value", .num (.finite 42)), ("expires", .date (some 100))]) rfl rfl
  exact ⟨h.1 (by decide), h2.2 (by decide)⟩

/-- C5: `has` returns true exactly when the pre-expiration-check fetch
finds an entry, with no expiration check applied — in particular it
returns true for an entry whose expiration timestamp is already in the
past but which has not yet been evicted by a get. -/
theorem C5_has_skips_expiration (pfx : String) (st : Store) (key : String) :
    (cache_has pfx st key = .ok true ↔
      ∃ item, fetch_value pfx st key = .ok item ∧ isUndef item = false) ∧
    (∀ item t, fetch_value pfx st key = .ok item →
      jsProp item "expires" = .date (some t) → cache_has pfx st key = .ok true) := by
  constructor
  · unfold cache_has
    rcases hfv : fetch_value pfx st key with e | item
    · constructor
      · intro hc
        exact absurd hc (by simp)
      · rintro ⟨item, hitem, -⟩
        exact absurd hitem (by simp)
    · constructor
      · intro hc
        refine ⟨item, rfl, ?_⟩
        injection hc with hc
        cases hx : isUndef item
        · rfl
        · rw [hx] at hc
          exact absurd hc (by simp)
      · rintro ⟨item', hitem, hu⟩
        injection hitem with hitem
        subst hitem
        show Except.ok (!isUndef item) = Except.ok true
        rw [hu]
        rfl
  · intro item t hfv hex
    have hu : isUndef item = false := by
      cases item <;> first | rfl | (exfalso; simp [jsProp] at hex)
    unfold cache_has
    rw [hfv]
    show Except.ok (!isUndef item) = Except.ok true
    rw [hu]
    rfl

/-- C5 witness: an entry stored with TTL -1 at time 1000 (so expired
relative to every later instant) is still reported present by `has`. -/
theorem C5_has_skips_expiration_witness :
    cache_has "p." (cache_set "p." [] (.str "k") (.str "v")
      (.num (.finite (-1))) 1000).1 "k" = .ok true :=
  (C5_has_skips_expiration "p."
    (cache_set "p." [] (.str "k") (.str "v") (.num (.finite (-1))) 1000).1 "k").2
    (.obj [("value", .str "v"), ("expires", .date (some 999))]) 999 rfl rfl

/-- C6: overwriting a key that was set with a TTL by a `set` with no
expiration fully replaces the entry: the stored entry carries no
expiration at all, and a get at ANY later time still returns the new
value. -/
theorem C6_overwrite_clears_expiration (pfx : String) (st : Store) (k : String)
    (v1 v2 e1 : JSVal) (now1 now2 : Int) (hk : k ≠ "")
    (hv2 : storableWith true v2 = true) (hv2u : v2 ≠ .undef) :
    (cache_set pfx (cache_set pfx st (.str k) v1 e1 now1).1
        (.str k) v2 .undef now2).2 = .ok v2 ∧
    fetch_value pfx (cache_set pfx (cache_set pfx st (.str k) v1 e1 now1).1
        (.str k) v2 .undef now2).1 k =
      .ok (.obj [("value", v2), ("expires", .undef)]) ∧
    (∀ now3, cache_get pfx (cache_set pfx (cache_set pfx st (.str k) v1 e1 now1).1
        (.str k) v2 .undef now2).1 k now3 =
      ((cache_set pfx (cache_set pfx st (.str k) v1 e1 now1).1
        (.str k) v2 .undef now2).1, .ok v2)) :=
  ⟨(set_ok pfx (cache_set pfx st (.str k) v1 e1 now1).1 now2 hk hv2 hv2u).1,
    fetch_after_set pfx (cache_set pfx st (.str k) v1 e1 now1).1 now2 hk hv2 hv2u,
    fun now3 => get_after_set pfx (cache_set pfx st (.str k) v1 e1 now1).1 now2 hk hv2 hv2u now3⟩

/-- C6 witness: set with TTL 100 at time 0, overwrite with no TTL at time
50, get at time 1000 (long after the first TTL) still returns the new
value, and the stored entry's expires member is undefined. -/
theorem C6_overwrite_clears_expiration_witness :
    (cache_set "p." (cache_set "p." [] (.str "k") (.str "v1")
        (.num (.finite 100)) 0).1 (.str "k") (.str "v2") .undef 50).2 =
      .ok (.str "v2") ∧
    cache_get "p." (cache_set "p." (cache_set "p." [] (.str "k") (.str "v1")
        (.num (.finite 100)) 0).1 (.str "k") (.str "v2") .undef 50).1 "k" 1000 =
      ((cache_set "p." (cache_set "p." [] (.str "k") (.str "v1")
        (.num (.finite 100)) 0).1 (.str "k") (.str "v2") .undef 50).1,
        .ok (.str "v2")) := by
  have h := C6_overwrite_clears_expiration "p." [] "k" (.str "v1") (.str "v2")
    (.num (.finite 100)) 0 50 (by decide) rfl (by simp)
  exact ⟨h.1, h.2.2 1000⟩

/-- C7 counterexample: the top-level node is NOT structurally validated:
the document with a "string" tag and no payload deserializes silently to
the string "undefined" instead of raising a CorruptEntry error. -/
theorem C7_counterexample :
    thaw (.jobj [("type", .jstr "string")]) = .ok (.str "undefined") := rfl

/-- C7 (amended): nested SerializedValue nodes — array elements and
object members — are checked before recursing into them, and a node
failing the check makes deserialization raise CorruptEntry; but the check
compares the type tag with LOOSE equality, so a nested node whose tag is
the array ["undefined"] (which coerces to the string "undefined") passes
the check and silently deserializes to undefined; and the TOP-LEVEL node
is not checked at all: an unrecognized top-level tag still raises
InvalidSerializedType, but a top-level node with a recognized tag and a
missing required payload is handed straight to the reconstruction
function, which can silently construct a wrong value. -/
theorem C7_nested_checked_loosely_top_level_not (f : Nat) :
    (∀ xs : List JVal, (∃ item ∈ xs, check_serialized item = false) →
      ∃ e, deserialize_array f (some (.jarr xs)) = .error e) ∧
    (∀ fs : List (String × JVal), (∃ kv ∈ fs, check_serialized kv.2 = false) →
      ∃ e, deserialize_object f (some (.jobj fs)) = .error e) ∧
    (∀ t v : Option JVal,
      jsToString t ≠ "undefined" → jsToString t ≠ "null" →
      jsToString t ≠ "string" → jsToString t ≠ "number" →
      jsToString t ≠ "boolean" → jsToString t ≠ "date" →
      jsToString t ≠ "array" → jsToString t ≠ "object" →
      deserialize_value (f + 1) t v =
        .error (.invalidSerializedType (jsToString t))) ∧
    check_serialized (.jobj [("type", .jarr [.jstr "undefined"])]) = true ∧
    deserialize_items (f + 2) [.jobj [("type", .jarr [.jstr "undefined"])]] =
      .ok [.undef] ∧
    thaw (.jobj [("type", .jstr "string")]) = .ok (.str "undefined") := by
  refine ⟨fun _ h => darr_err_of_malformed f h,
    fun _ h => dobj_err_of_malformed f h, ?_, rfl, rfl, rfl⟩
  intro t v h1 h2 h3 h4 h5 h6 h7 h8
  simp only [deserialize_value]
  rw [if_neg h1, if_neg h2, if_neg h3, if_neg h4, if_neg h5, if_neg h6,
    if_neg h7, if_neg h8]

/-- C7 witness: an array payload containing the malformed node `null`
raises, an object payload with a malformed member raises, and an
unrecognized top-level tag raises InvalidSerializedType. -/
theorem C7_nested_checked_loosely_top_level_not_witness :
    (∃ e, deserialize_array 5 (some (.jarr [JVal.jnull])) = .error e) ∧
    (∃ e, deserialize_object 5 (some (.jobj [("m", JVal.jbool true)])) = .error e) ∧
    deserialize_value 5 (some (.jstr "bogus")) none =
      .error (.invalidSerializedType "bogus") := by
  have h5 := C7_nested_checked_loosely_top_level_not 5
  have h4 := C7_nested_checked_loosely_top_level_not 4
  refine ⟨h5.1 [JVal.jnull] ⟨JVal.jnull, List.mem_singleton.mpr rfl, rfl⟩,
    h5.2.1 [("m", JVal.jbool true)] ⟨("m", JVal.jbool true),
      List.mem_singleton.mpr rfl, rfl⟩, ?_⟩
  have h := h4.2.2.1 (some (.jstr "bogus")) none (by decide) (by decide)
    (by decide) (by decide) (by decide) (by decide) (by decide) (by decide)
  exact h

/-- C8: serializing NaN, +Infinity, -Infinity produces a number-tagged
node whose payload is the literal string "NaN", "Infinity", "-Infinity"
respectively; a finite number's payload is the number itself in literal
numeric form; deserializing a number-tagged node maps exactly those three
string payloads to the corresponding non-finite numbers and every other
payload to its numeric value (`+value`). -/
theorem C8_nonfinite_number_encoding :
    (∀ q : ℚ, serialize_number (.finite q) = mkNodeV "number" (.jnum q)) ∧
    serialize_number .nan = mkNodeV "number" (.jstr "NaN") ∧
    serialize_number .inf = mkNodeV "number" (.jstr "Infinity") ∧
    serialize_number .negInf = mkNodeV "number" (.jstr "-Infinity") ∧
    deserialize_number (some (.jstr "NaN")) = .num .nan ∧
    deserialize_number (some (.jstr "Infinity")) = .num .inf ∧
    deserialize_number (some (.jstr "-Infinity")) = .num .negInf ∧
    (∀ s : String, s ≠ "NaN" → s ≠ "Infinity" → s ≠ "-Infinity" →
      deserialize_number (some (.jstr s)) = .num (strToNum s)) ∧
    (∀ p : Option JVal, (∀ s, p ≠ some (.jstr s)) →
      deserialize_number p = .num (jsToNumber p)) := by
  refine ⟨fun q => rfl, rfl, rfl, rfl, rfl, rfl, rfl, ?_, ?_⟩
  · intro s h1 h2 h3
    simp only [deserialize_number]
    rw [if_neg h3, if_neg h2, if_neg h1]
  · intro p hp
    rcases p with _ | d
    · rfl
    · cases d with
      | jstr s => exact absurd rfl (hp s)
      | jnull => rfl
      | jbool b => rfl
      | jnum q => rfl
      | jarr xs => rfl
      | jobj fs => rfl

/-- C8 witness: a non-special string payload parses numerically and a
numeric payload passes through unchanged. -/
theorem C8_nonfinite_number_encoding_witness :
    deserialize_number (some (.jstr "5")) = .num (strToNum "5") ∧
    deserialize_number (some (.jnum 7)) = .num (jsToNumber (some (.jnum 7))) :=
  ⟨C8_nonfinite_number_encoding.2.2.2.2.2.2.2.1 "5"
      (by decide) (by decide) (by decide),
   C8_nonfinite_number_encoding.2.2.2.2.2.2.2.2 (some (.jnum 7))
      (fun s => by simp)⟩

/-- C9: `set` of the Undefined marker as the top-level value raises
InvalidValue and stores nothing; yet an (otherwise storable) array or
object containing Undefined as a nested element or member is accepted,
the nested Undefined survives storage, and a later get returns the
structure — including its Undefined member — unchanged. -/
theorem C9_undefined_top_rejected_nested_kept (pfx : String) (st : Store)
    (k : String) (v e : JSVal) (now now2 : Int) (hk : k ≠ "") :
    cache_set pfx st (.str k) .undef e now = (st, .error .invalidValue) ∧
    (storableWith true v = true → containsUndef v = true → isArrOrObj v = true →
      (cache_set pfx st (.str k) v .undef now).2 = .ok v ∧
      cache_get pfx (cache_set pfx st (.str k) v .undef now).1 k now2 =
        ((cache_set pfx st (.str k) v .undef now).1, .ok v)) := by
  constructor
  · simp only [cache_set]
    rw [if_neg hk]
    rfl
  · intro hv hcu hao
    have hvu : v ≠ .undef := by
      intro hc
      rw [hc] at hao
      exact absurd hao (by simp [isArrOrObj])
    exact ⟨(set_ok pfx st now hk hv hvu).1, get_after_set pfx st now hk hv hvu now2⟩

/-- C9 witness: storing undefined at top level raises InvalidValue and
leaves the (empty) backend empty; storing an array with a nested
undefined succeeds and a later get returns the array with the undefined
element intact. -/
theorem C9_undefined_top_rejected_nested_kept_witness :
    cache_set "p." [] (.str "k") .undef .undef 0 = ([], .error .invalidValue) ∧
    (cache_set "p." [] (.str "k") (.arr [.num (.finite 1), .undef]) .undef 0).2 =
      .ok (.arr [.num (.finite 1), .undef]) ∧
    cache_get "p." (cache_set "p." [] (.str "k")
        (.arr [.num (.finite 1), .undef]) .undef 0).1 "k" 99 =
      ((cache_set "p." [] (.str "k") (.arr [.num (.finite 1), .undef]) .undef 0).1,
        .ok (.arr [.num (.finite 1), .undef])) := by
  have h := C9_undefined_top_rejected_nested_kept "p." []
    "k" (.arr [.num (.finite 1), .undef]) .undef 0 99 (by decide)
  exact ⟨h.1, (h.2 rfl rfl rfl).1, (h.2 rfl rfl rfl).2⟩

/-- C10 counterexample: the adapter tests presence by the TRUTHINESS of
`items[key]`, an ordinary JavaScript property read.  Two breakages
follow.  First, overwriting a key whose current value is falsy (here the
number 0) pushes the key a second time and bumps the length: after two
setItem calls on the same key the adapter holds one binding but reports
length 2 and lists the key twice.  Second, the read walks the prototype
chain: under the key "toString" an absent binding still reads the
inherited (truthy) `Object.prototype.toString` function, so setItem on
that fresh key stores the value WITHOUT pushing the key or bumping the
length, and removeItem on the absent key decrements the length to -1. -/
theorem C10_counterexample :
    (memSetItem (memSetItem memInit "k" (.num (.finite 0))) "k"
      (.num (.finite 1))).length = 2 ∧
    (memSetItem (memSetItem memInit "k" (.num (.finite 0))) "k"
      (.num (.finite 1))).keys = ["k", "k"] ∧
    (memSetItem (memSetItem memInit "k" (.num (.finite 0))) "k"
      (.num (.finite 1))).items = [("k", .num (.finite 1))] ∧
    (memSetItem memInit "toString" (.str "v")).length = 0 ∧
    (memSetItem memInit "toString" (.str "v")).keys = ([] : List String) ∧
    (memSetItem memInit "toString" (.str "v")).items = [("toString", .str "v")] ∧
    (memRemoveItem memInit "toString").length = -1 :=
  ⟨rfl, rfl, rfl, rfl, rfl, rfl, rfl⟩

/-- C10 (amended): across every sequence of setItem/removeItem/clear
calls in which every stored value is truthy (as every cache entry is —
entries are objects) and no key names an inherited `Object.prototype`
property, the adapter maintains the invariant: the keys array lists
exactly the stored keys, each exactly once, the length field counts them,
and key(i) enumerates them; setItem on such a key whose current value is
truthy replaces the value without growing length or keys; removeItem on
such an absent key changes nothing; clear resets everything.  A falsy
stored value or a key like "toString" breaks the truthiness-based
presence test, as the counterexample shows. -/
theorem C10_mem_adapter_invariant :
    (∀ ops : List MemOp, ops.all opOk = true → memInv (memRun memInit ops)) ∧
    (∀ (s : MemStorage) (k : String) (v : JSVal), memInv s →
      plainKey k = true → k ∈ s.items.map Prod.fst →
      (memSetItem s k v).length = s.length ∧ (memSetItem s k v).keys = s.keys ∧
      memGetItem (memSetItem s k v) k = some v) ∧
    (∀ (s : MemStorage) (k : String), plainKey k = true → memOwn s k = none →
      memRemoveItem s k = s) ∧
    (∀ s : MemStorage, memClear s = memInit) := by
  refine ⟨fun ops h => memInv_run memInv_init h, ?_, ?_, fun s => rfl⟩
  · intro s k v hInv hpk hmem
    obtain ⟨w, hw⟩ := memOwn_some_of_mem hmem
    have ht : truthyOpt (memGetItem s k) = true := by
      rw [memGetItem_plain hpk, hw]
      exact hInv.2.2.2 (k, w) (memOwn_some_mem hw)
    unfold memSetItem
    rw [if_pos ht]
    refine ⟨rfl, rfl, ?_⟩
    rw [memGetItem_plain hpk]
    exact memOwn_assocSet s.items k v s.keys s.length
  · intro s k hpk hown
    unfold memRemoveItem
    rw [memGetItem_plain hpk, hown]
    rfl

/-- C10 witness: a call sequence of truthy values under plain keys ends
in an invariant state, and a setItem over a truthy present plain-keyed
value keeps length and keys. -/
theorem C10_mem_adapter_invariant_witness :
    memInv (memRun memInit [MemOp.setI "a" (.str "x"), MemOp.setI "a" (.str "y"),
      MemOp.removeI "b"]) ∧
    (memSetItem ⟨[("a", .str "x")], ["a"], 1⟩ "a" (.str "y")).length = 1 := by
  refine ⟨C10_mem_adapter_invariant.1 _ (by decide), ?_⟩
  have h := C10_mem_adapter_invariant.2.1 ⟨[("a", .str "x")], ["a"], 1⟩ "a" (.str "y")
    ⟨rfl, by decide, rfl, by decide⟩ (by decide) (by decide)
  exact h.1

end ExtUxCache
